/- Verification of the Advent of Code 2022 C++ solutions (saser/code).

   Shallow embedding of the C++ sources under src/adventofcode/cc/.
   Machine integers (int / int64_t) are modelled as Lean Int together with
   explicit range checks; an operation whose C++ counterpart has undefined
   behaviour (signed overflow, out-of-range indexing, uninitialised reads,
   calling back() on an empty string) is modelled as returning none.
   A C++ function returning absl::StatusOr<T> is modelled as
   Option (Except Status T): some (.ok v) is a value, some (.error e) is a
   returned status, none marks undefined behaviour. -/
import Mathlib

namespace adventofcode

/-- Model of absl::Status restricted to the codes this repository constructs:
absl::InvalidArgumentError and absl::InternalError, each with a message. -/
inductive Status where
  | invalidArgument (msg : String)
  | internal (msg : String)
deriving DecidableEq, Repr

instance {α : Type} [DecidableEq α] : DecidableEq (Except Status α) := fun a b =>
  match a, b with
  | .error x, .error y =>
    if h : x = y then .isTrue (by rw [h]) else .isFalse (fun hh => h (by injection hh))
  | .error _, .ok _ => .isFalse (fun hh => Except.noConfusion hh)
  | .ok _, .error _ => .isFalse (fun hh => Except.noConfusion hh)
  | .ok x, .ok y =>
    if h : x = y then .isTrue (by rw [h]) else .isFalse (fun hh => h (by injection hh))

/-- Model of absl::StrSplit(input, (newline)): split a character list on
newline characters.  Splitting the empty string yields one empty piece, as
absl::StrSplit does. -/
def splitNl : List Char → List (List Char)
  | [] => [[]]
  | c :: rest =>
    match splitNl rest with
    | [] => [[c]]
    | l :: ls => if c = '\n' then [] :: l :: ls else (c :: l) :: ls

/-- Smallest value of the C++ int type (32-bit). -/
def int32Min : Int := -2147483648

/-- Largest value of the C++ int type (32-bit). -/
def int32Max : Int := 2147483647

/-- Range test for the C++ int type. -/
def inRange32 (v : Int) : Bool := decide (int32Min ≤ v) && decide (v ≤ int32Max)

/-- Smallest value of the C++ int64_t type. -/
def int64Min : Int := -9223372036854775808

/-- Largest value of the C++ int64_t type. -/
def int64Max : Int := 9223372036854775807

/-- Range test for the C++ int64_t type. -/
def inRange64 (v : Int) : Bool := decide (int64Min ≤ v) && decide (v ≤ int64Max)

/-- An int64_t computation: the value if it is representable, none (undefined
behaviour) if it overflowed. -/
def chk64 (v : Int) : Option Int := if inRange64 v then some v else none

/-- absl::ascii_isspace: the six ASCII whitespace characters. -/
def isAsciiSpace (c : Char) : Bool :=
  c = ' ' || c = '\t' || c = '\n' || c = '\x0b' || c = '\x0c' || c = '\r'

/-- Strip leading and trailing ASCII whitespace, as absl's integer parser
(safe_parse_sign_and_base in absl/strings/numbers.cc) does before parsing. -/
def trimAsciiSpace (l : List Char) : List Char :=
  ((l.dropWhile isAsciiSpace).reverse.dropWhile isAsciiSpace).reverse

/-- Numeric value of a list of decimal digit characters. -/
def digitsVal (l : List Char) : Nat := l.foldl (fun a c => 10 * a + (c.toNat - 48)) 0

/-- Shared helper for atoiInt: given the sign and the remaining characters,
require at least one character, all decimal digits, and a result in int
range. -/
def atoiDigits (neg : Bool) (ds : List Char) : Option Int :=
  if ds ≠ [] ∧ ds.all Char.isDigit then
    let v : Int := if neg then -(digitsVal ds : Int) else (digitsVal ds : Int)
    if inRange32 v then some v else none
  else none

/-- Model of absl::SimpleAtoi<int>: strip ASCII whitespace from both ends,
accept one optional sign character, then one or more decimal digits making up
the whole remainder, and require the value to fit in int; none on failure
(including out-of-range values). -/
def atoiInt (l : List Char) : Option Int :=
  match trimAsciiSpace l with
  | '-' :: r => atoiDigits true r
  | '+' :: r => atoiDigits false r
  | r => atoiDigits false r

/-- Running-sum checker: walks lines exactly like day01's calories loop and
reports whether every int addition performed before the loop either ends or
hits an unparseable line stays in int range. -/
def sumsOk (sum : Int) : List (List Char) → Bool
  | [] => true
  | l :: ls =>
    if l = [] then sumsOk 0 ls
    else
      match atoiInt l with
      | none => true
      | some v => inRange32 (sum + v) && sumsOk (sum + v) ls

/-- Range checker for a sequence of int additions starting from an
accumulator: every intermediate total must fit in int. -/
def stepsOk (c : Int) : List Int → Bool
  | [] => true
  | v :: vs => inRange32 (c + v) && stepsOk (c + v) vs

/-- Apply an Option-valued function to every element, succeeding only when
every application succeeds (a transparent mapM for Option). -/
def mapMo {α β : Type} (f : α → Option β) : List α → Option (List β)
  | [] => some []
  | a :: l =>
    match f a, mapMo f l with
    | some b, some bs => some (b :: bs)
    | _, _ => none

namespace day01

/-- The loop body of calories (src/adventofcode/cc/year2022/day01.cc): acc is
the sums vector, sum the running group total.  An empty line pushes the
current total and resets it; any other line must parse as an int and is added
to the running total (none on int overflow, which is UB in the C++). -/
def calLoop (acc : List Int) (sum : Int) : List (List Char) → Option (Except Status (List Int))
  | [] => some (.ok acc)
  | l :: ls =>
    if l = [] then calLoop (acc ++ [sum]) 0 ls
    else
      match atoiInt l with
      | none =>
        some (.error (.invalidArgument
          ("invalid line couldn't be parsed as an integer: " ++ String.mk l)))
      | some v => if inRange32 (sum + v) then calLoop acc (sum + v) ls else none

/-- calories from day01.cc: split the input on newlines and run the loop. -/
def calories (s : String) : Option (Except Status (List Int)) :=
  calLoop [] 0 (splitNl s.data)

/-- day01 Part1: maximum of the group sums.  Dereferencing
std::max_element of an empty vector is UB, modelled as none. -/
def Part1 (s : String) : Option (Except Status String) :=
  match calories s with
  | none => none
  | some (.error e) => some (.error e)
  | some (.ok sums) =>
    match sums with
    | [] => none
    | x :: xs => some (.ok (toString (xs.foldl max x)))

/-- Insertion into a descending-sorted list, the building block of our model
of std::sort with reverse iterators. -/
def insertDesc (x : Int) : List Int → List Int
  | [] => [x]
  | y :: ys => if y ≤ x then x :: y :: ys else y :: insertDesc x ys

/-- Model of std::sort(sums->rbegin(), sums->rend()): sort descending. -/
def sortDesc (l : List Int) : List Int := l.foldr insertDesc []

/-- day01 Part2: sort the sums descending and add the first three entries.
Indexing a vector with fewer than three elements is UB (none), as is int
overflow of either addition. -/
def Part2 (s : String) : Option (Except Status String) :=
  match calories s with
  | none => none
  | some (.error e) => some (.error e)
  | some (.ok sums) =>
    match sortDesc sums with
    | a :: b :: c :: _ =>
      if inRange32 (a + b) then
        if inRange32 (a + b + c) then some (.ok (toString (a + b + c))) else none
      else none
    | _ => none

end day01

/-- Sufficient condition for day01 Part2 to complete without UB: parsing
either fails (an error is returned) or produces at least three group sums
whose three largest members can be added without int overflow. -/
def part2Safe (s : String) : Bool :=
  match day01.calories s with
  | some (.ok r) => decide (3 ≤ r.length) && stepsOk 0 ((day01.sortDesc r).take 3)
  | some (.error _) => true
  | none => false

/-- Sufficient condition for day01 Part1 to complete without UB: parsing
either fails (an error is returned) or produces at least one group sum
(otherwise std::max_element of an empty vector is dereferenced). -/
def part1Safe (s : String) : Bool :=
  match day01.calories s with
  | some (.ok r) => decide (r ≠ [])
  | some (.error _) => true
  | none => false

namespace trim

/-- The two characters TrimSpace (src/adventofcode/cc/trim.cc) strips. -/
def isTrimWs (c : Char) : Bool := c = ' ' || c = '\n'

/-- Index of the first character not satisfying ws, if any: the model of
std::string_view::find_first_not_of (none plays the role of npos). -/
def findIdxNot (ws : Char → Bool) : List Char → Option Nat
  | [] => none
  | c :: rest => if ws c then (findIdxNot ws rest).map (· + 1) else some 0

/-- Index of the last character not satisfying ws, if any: the model of
std::string_view::find_last_not_of. -/
def findLastNot (ws : Char → Bool) (l : List Char) : Option Nat :=
  (findIdxNot ws l.reverse).map (fun j => l.length - 1 - j)

/-- TrimSpace from src/adventofcode/cc/trim.cc: find_first_not_of /
find_last_not_of of " \n" with npos replaced by 0 and by length
respectively, then substr(start, end - start + 1) (substr clamps the
count). -/
def TrimSpace (s : String) : String :=
  let cs := s.data
  let start :=
    match findIdxNot isTrimWs cs with
    | some i => i
    | none => 0
  let stop :=
    match findLastNot isTrimWs cs with
    | some j => j
    | none => cs.length
  String.mk ((cs.drop start).take (stop - start + 1))

end trim

namespace day06

/-- The Buffer struct from src/adventofcode/cc/year2022/day06.cc: a ring
buffer of at most 14 characters plus per-letter occurrence counts and a
count of distinct letters. -/
structure Buffer where
  buf : List Char
  bufStart : Nat
  capacity : Nat
  size : Nat
  seen : List Int
  different : Int
deriving Repr

/-- Buffer construction: buf_ is char[14] zero-initialised, seen_ is int[26]
zero-initialised. -/
def initBuffer (cap : Nat) : Buffer :=
  { buf := List.replicate 14 (Char.ofNat 0), bufStart := 0, capacity := cap,
    size := 0, seen := List.replicate 26 0, different := 0 }

/-- Index of a character into seen_, computed in the C++ as c - 'a'. -/
def lowerIdx (c : Char) : Nat := c.toNat - 97

/-- Lowercase check: exactly the characters for which c - 'a' is in [0, 25],
so that indexing seen_ is in bounds. -/
def isLower (c : Char) : Bool := decide (97 ≤ c.toNat) && decide (c.toNat ≤ 122)

/-- Buffer::added: seen_[c - 'a']++, and different_++ when the count becomes
one.  A non-lowercase character indexes seen_ out of range (the negative int
wraps around when converted to size_t): UB, none. -/
def Buffer.added (b : Buffer) (c : Char) : Option Buffer :=
  if isLower c then
    let idx := lowerIdx c
    let cnt := (b.seen[idx]?).getD 0 + 1
    some { b with seen := b.seen.set idx cnt,
                  different := if cnt = 1 then b.different + 1 else b.different }
  else none

/-- Buffer::dropped: seen_[c - 'a']--, and different_-- when the count
reaches zero. -/
def Buffer.dropped (b : Buffer) (c : Char) : Option Buffer :=
  if isLower c then
    let idx := lowerIdx c
    let cnt := (b.seen[idx]?).getD 0 - 1
    some { b with seen := b.seen.set idx cnt,
                  different := if cnt = 0 then b.different - 1 else b.different }
  else none

/-- Buffer::Push.  Below capacity: write buf_[size_] (in range only when
size_ < 14), bump size_, mark added.  At capacity: remember buf_end :=
buf_start_, advance buf_start_ (wrapping at size_), drop the character at
buf_end, overwrite it, mark added. -/
def Buffer.push (b : Buffer) (c : Char) : Option Buffer :=
  if b.size < b.capacity then
    if b.size < 14 then
      Buffer.added { b with buf := b.buf.set b.size c, size := b.size + 1 } c
    else none
  else
    let bufEnd := b.bufStart
    let start1 := b.bufStart + 1
    let start2 := if start1 = b.size then 0 else start1
    match b.buf[bufEnd]? with
    | none => none
    | some old =>
      match Buffer.dropped { b with bufStart := start2 } old with
      | some b1 => Buffer.added { b1 with buf := b1.buf.set bufEnd c } c
      | none => none

/-- The loop of solve in day06.cc: push each character; as soon as the index
is at least the capacity and the buffer holds capacity distinct characters,
answer i + 1; falling off the end returns an internal error. -/
def solveLoop (cap : Nat) (b : Buffer) : List Char → Nat → Option (Except Status String)
  | [], _ => some (.error (.internal "no answer found"))
  | c :: rest, i =>
    match b.push c with
    | none => none
    | some b' =>
      if cap ≤ i ∧ b'.different = (cap : Int) then some (.ok (toString (i + 1)))
      else solveLoop cap b' rest (i + 1)

/-- Crop one trailing newline, as solve does. -/
def cropNl (cs : List Char) : List Char :=
  match cs.getLast? with
  | some c => if c = '\n' then cs.dropLast else cs
  | none => cs

/-- solve from day06.cc.  input.back() on an empty string is UB: none. -/
def solve (s : String) (part1 : Bool) : Option (Except Status String) :=
  if s.data = [] then none
  else
    let cap : Nat := if part1 then 4 else 14
    solveLoop cap (initBuffer cap) (cropNl s.data) 0

/-- day06 Part1: solve with window size 4. -/
def Part1 (s : String) : Option (Except Status String) := solve s true

/-- day06 Part2: solve with window size 14. -/
def Part2 (s : String) : Option (Except Status String) := solve s false

/-- The window of the last cap characters among the first i + 1 characters
of cs: the characters a marker test at index i looks at. -/
def wnd (cap : Nat) (cs : List Char) (i : Nat) : List Char :=
  (cs.take (i + 1)).drop (i + 1 - cap)

/-- First index i of cs at which a run of cap pairwise-distinct characters
ends, searching only indices at least lo: the specification-side notion of
the first marker.  With lo = cap - 1 this is the first full window at all
(the puzzle's reading); with lo = cap it is what the code's loop condition
i >= capacity can ever report. -/
def firstDistinctRun (cap lo : Nat) (cs : List Char) : Option Nat :=
  (List.range cs.length).find? (fun i => decide (lo ≤ i) && decide (wnd cap cs i).Nodup)

/-- The last cap characters of l (all of l while it is shorter): the
characters logically held by the ring buffer after pushing l. -/
def win (cap : Nat) (l : List Char) : List Char := l.drop (l.length - cap)

/-- The Buffer invariant: after pushing the characters pre with logical
capacity cap, the struct fields describe the window win cap pre - size and
bufStart as maintained by Push, the ring cells holding the window in order,
seen_ holding occurrence counts and different_ the number of distinct
characters in the window. -/
def goodBuffer (cap : Nat) (pre : List Char) (b : Buffer) : Prop :=
  b.capacity = cap ∧ b.buf.length = 14 ∧ b.seen.length = 26 ∧
  b.size = min pre.length cap ∧
  b.bufStart = (if pre.length < cap then 0 else pre.length % cap) ∧
  (∀ j, j < b.size → b.buf[(b.bufStart + j) % cap]? = (win cap pre)[j]?) ∧
  (∀ x, isLower x = true → b.seen[lowerIdx x]? = some ((win cap pre).count x : Int)) ∧
  b.different = ((win cap pre).toFinset.card : Int)

end day06

/-- Maximum of a list of ints computed the way day01 Part1 does
(std::max_element): the head folded with max over the tail; 0 for the empty
list, on which Part1 is UB anyway. -/
def listMax : List Int → Int
  | [] => 0
  | x :: xs => xs.foldl max x

namespace day25

/-- The switch in snafuToDecimal (day25.cc): value of one SNAFU digit
character.  The switch has no default case, so any other character leaves x
uninitialised: UB, none. -/
def digitOfChar (c : Char) : Option Int :=
  if c = '2' then some 2
  else if c = '1' then some 1
  else if c = '0' then some 0
  else if c = '-' then some (-1)
  else if c = '=' then some (-2)
  else none

/-- The loop of snafuToDecimal over the characters from least significant to
most significant: sum += x * factor; factor *= 5, every int64_t operation
overflow-checked (note factor *= 5 runs on the last iteration too). -/
def decodeLoop (sum factor : Int) : List Char → Option Int
  | [] => some sum
  | c :: rest =>
    match digitOfChar c with
    | none => none
    | some x =>
      match chk64 (x * factor) with
      | none => none
      | some xf =>
        match chk64 (sum + xf) with
        | none => none
        | some sum' =>
          match chk64 (factor * 5) with
          | none => none
          | some factor' => decodeLoop sum' factor' rest

/-- snafuToDecimal from day25.cc, on the character list of the numeral
(most significant first, as in the string). -/
def snafuToDecimal (cs : List Char) : Option Int := decodeLoop 0 1 cs.reverse

/-- Fuel-indexed version of the first loop of decimalToSnafu, structurally
recursive so that it evaluates inside the kernel.  digitsBase5 runs it with
fuel n.natAbs, which is enough (digitsBase5Loop_fuel below): the loop body
is exactly the C++ for-loop, one n % 5 digit per round of n /= 5 (truncating
division). -/
def digitsBase5Loop : Nat → Int → List Int
  | 0, _ => []
  | fuel + 1, n => if n = 0 then [] else n.tmod 5 :: digitsBase5Loop fuel (n.tdiv 5)

/-- The first loop of decimalToSnafu: plain base-5 digits of n, least
significant first, via n % 5 and n /= 5 (C++ truncating division). -/
def digitsBase5 (n : Int) : List Int := digitsBase5Loop n.natAbs n

/-- The second loop of decimalToSnafu: walk the digit vector from least
significant to most significant; a digit that is at least 3 is replaced by
digit - 5 and increments the next digit.  Incrementing past the end of the
vector (digits[i + 1] with i the last index) is UB: none. -/
def fixup (carry : Int) : List Int → Option (List Int)
  | [] => some []
  | d :: rest =>
    let d' := d + carry
    if 3 ≤ d' then
      match rest with
      | [] => none
      | _ :: _ => (fixup 1 rest).map (fun out => (d' - 5) :: out)
    else (fixup 0 rest).map (fun out => d' :: out)

/-- The final switch of decimalToSnafu: digit to character; digits outside
[-2, 2] leave c uninitialised: UB, none. -/
def charOfDigit (d : Int) : Option Char :=
  if d = -2 then some '='
  else if d = -1 then some '-'
  else if d = 0 ∨ d = 1 ∨ d = 2 then some (Char.ofNat (48 + d.toNat))
  else none

/-- decimalToSnafu from day25.cc: base-5 digits, an extra leading 0, the
carry pass, dropping the extra 0 if it stayed 0, then characters from most
significant to least significant. -/
def decimalToSnafu (input : Int) : Option String :=
  match fixup 0 (digitsBase5 input ++ [0]) with
  | none => none
  | some fixed =>
    let popped := if fixed.getLast? = some 0 then fixed.dropLast else fixed
    match mapMo charOfDigit popped.reverse with
    | none => none
    | some chars => some (String.mk chars)

/-- The summation loop of Part1: sum += snafuToDecimal(snafu), the int64_t
addition overflow-checked. -/
def sumLoop (sum : Int) : List (List Char) → Option Int
  | [] => some sum
  | n :: ns =>
    match snafuToDecimal n with
    | none => none
    | some v =>
      match chk64 (sum + v) with
      | none => none
      | some sum' => sumLoop sum' ns

/-- day25 Part1: split on newlines skipping empty pieces
(absl::SkipEmpty()), sum the numeral values, convert back to SNAFU. -/
def Part1 (s : String) : Option (Except Status String) :=
  match sumLoop 0 ((splitNl s.data).filter (fun l => l ≠ [])) with
  | none => none
  | some sum =>
    match decimalToSnafu sum with
    | none => none
    | some out => some (.ok out)

/-- The five SNAFU digit characters. -/
def isSnafuChar (c : Char) : Bool := c = '2' || c = '1' || c = '0' || c = '-' || c = '='

/-- Specification-side value of one SNAFU digit character: '2', '1', '0'
denote 2, 1, 0, '-' denotes -1 and '=' denotes -2 (other characters are
mapped to 0; they never occur under the validity hypotheses). -/
def snafuDigitVal (c : Char) : Int :=
  if c = '2' then 2
  else if c = '1' then 1
  else if c = '-' then -1
  else if c = '=' then -2
  else 0

/-- Value of a digit list, least significant digit first, with place values
the powers of five. -/
def valB5 : List Int → Int
  | [] => 0
  | d :: ds => d + 5 * valB5 ds

/-- Specification-side value of a SNAFU numeral given as its character list,
most significant digit first. -/
def snafuVal (cs : List Char) : Int := valB5 (cs.reverse.map snafuDigitVal)

/-- The balanced residue of n mod 5, in [-2, 2] and congruent to n. -/
def bdigit (n : Int) : Int := (n + 2) % 5 - 2

/-- Fuel-indexed greedy balanced base-5 digit expansion (least significant
first), used by the specification-side SNAFU printer. -/
def specSnafuDigitsLoop : Nat → Int → List Int
  | 0, _ => []
  | fuel + 1, n => if n = 0 then [] else bdigit n :: specSnafuDigitsLoop fuel ((n - bdigit n) / 5)

/-- Specification-side balanced base-5 digits of n, least significant
first; n.natAbs is enough fuel. -/
def specSnafuDigits (n : Int) : List Int := specSnafuDigitsLoop n.natAbs n

/-- Character for a balanced digit in [-2, 2]. -/
def specSnafuChar (d : Int) : Char :=
  if d = -2 then '='
  else if d = -1 then '-'
  else if d = 0 then '0'
  else if d = 1 then '1'
  else '2'

/-- Modelled from the spec: the SNAFU numeral denoting an integer - the
unique balanced base-5 representation over digit characters 2, 1, 0, -, =
with no leading zero ("0" for zero itself), most significant digit
first. -/
def specSnafu (n : Int) : String :=
  if n = 0 then "0" else String.mk ((specSnafuDigits n).reverse.map specSnafuChar)

end day25

/-- Range checker for a sequence of int64 additions starting from an
accumulator: every intermediate total must fit in int64. -/
def steps64Ok (c : Int) : List Int → Bool
  | [] => true
  | v :: vs => inRange64 (c + v) && steps64Ok (c + v) vs

/-- Sufficient condition for day25 Part1 to complete without UB: every
numeral consists of SNAFU digit characters and has at most 27 digits (so
decoding never overflows int64), the running total never overflows int64,
and the final total is non-negative (so converting back to SNAFU never
reaches the UB digit-to-character cases). -/
def day25Safe (s : String) : Bool :=
  let numerals := (splitNl s.data).filter (fun l => l ≠ [])
  numerals.all (fun l => l.all day25.isSnafuChar && decide (l.length ≤ 27)) &&
    steps64Ok 0 (numerals.map day25.snafuVal) &&
    decide (0 ≤ (numerals.map day25.snafuVal).sum)

namespace geometry

/-- Pos from src/adventofcode/cc/geometry/pos.h: a point with int64_t
coordinates.  Fields are Int; well-formed values have both in int64 range. -/
structure Pos where
  x : Int
  y : Int
deriving DecidableEq, Repr

/-- A Pos whose fields are representable int64_t values. -/
def Pos.wf (p : Pos) : Prop :=
  int64Min ≤ p.x ∧ p.x ≤ int64Max ∧ int64Min ≤ p.y ∧ p.y ≤ int64Max

/-- Pos::Distance(to) from pos.cc: std::abs(x - to.x) + std::abs(y - to.y)
with every int64_t operation checked (subtraction overflow, std::abs of
INT64_MIN and addition overflow are UB, modelled as none). -/
def Pos.DistanceTo (p q : Pos) : Option Int := do
  let dx ← chk64 (p.x - q.x)
  let adx ← chk64 |dx|
  let dy ← chk64 (p.y - q.y)
  let ady ← chk64 |dy|
  chk64 (adx + ady)

/-- Zero-argument Pos::Distance() from pos.cc: distance to Pos{0, 0}. -/
def Pos.Distance (p : Pos) : Option Int := p.DistanceTo { x := 0, y := 0 }

end geometry

end adventofcode

/- ------------------------------------------------------------------ -/
/- Theorems.                                                           -/
/- ------------------------------------------------------------------ -/

open adventofcode

namespace adventofcode

theorem findIdxNot_some_of_exists {ws : Char → Bool} :
    ∀ {l : List Char}, (∃ c ∈ l, ws c = false) → ∃ i, trim.findIdxNot ws l = some i := by
  intro l h
  induction l with
  | nil => simp at h
  | cons c rest ih =>
    by_cases hc : ws c = true
    · have hrest : ∃ x ∈ rest, ws x = false := by
        rcases h with ⟨x, hx, hxf⟩
        rcases List.mem_cons.mp hx with hx1 | hx1
        · subst hx1; rw [hc] at hxf; cases hxf
        · exact ⟨x, hx1, hxf⟩
      rcases ih hrest with ⟨i, hi⟩
      exact ⟨i + 1, by simp [trim.findIdxNot, hc, hi]⟩
    · exact ⟨0, by simp [trim.findIdxNot, hc]⟩

theorem findIdxNot_none_of_all {ws : Char → Bool} :
    ∀ {l : List Char}, (∀ c ∈ l, ws c = true) → trim.findIdxNot ws l = none := by
  intro l h
  induction l with
  | nil => rfl
  | cons c rest ih =>
    have hc := h c (by simp)
    have := ih (fun x hx => h x (by simp [hx]))
    simp [trim.findIdxNot, hc, this]

end adventofcode

/-- C9: on input with at least one character other than space and newline,
TrimSpace returns the substring from the first to the last such character
inclusive (the indices being what find_first_not_of / find_last_not_of
report); on a non-empty input made only of spaces and newlines it returns
the whole input unchanged. -/
theorem c9_trimspace_spec (s : String) :
    ((∃ c ∈ s.data, trim.isTrimWs c = false) →
      ∃ i j, trim.findIdxNot trim.isTrimWs s.data = some i ∧
        trim.findLastNot trim.isTrimWs s.data = some j ∧
        trim.TrimSpace s = String.mk ((s.data.drop i).take (j - i + 1))) ∧
    ((s.data ≠ [] ∧ ∀ c ∈ s.data, trim.isTrimWs c = true) → trim.TrimSpace s = s) := by
  constructor
  · intro h
    rcases adventofcode.findIdxNot_some_of_exists h with ⟨i, hi⟩
    have hrev : ∃ c ∈ s.data.reverse, trim.isTrimWs c = false := by
      rcases h with ⟨c, hc, hcf⟩
      exact ⟨c, by simp [hc], hcf⟩
    rcases adventofcode.findIdxNot_some_of_exists hrev with ⟨j0, hj0⟩
    refine ⟨i, s.data.length - 1 - j0, ?_, ?_, ?_⟩
    · exact hi
    · simp [trim.findLastNot, hj0]
    · simp [trim.TrimSpace, hi, trim.findLastNot, hj0]
  · rintro ⟨hne, hall⟩
    have h1 : trim.findIdxNot trim.isTrimWs s.data = none :=
      adventofcode.findIdxNot_none_of_all hall
    have h2 : trim.findIdxNot trim.isTrimWs s.data.reverse = none :=
      adventofcode.findIdxNot_none_of_all (fun c hc => hall c (by simpa using hc))
    have : trim.TrimSpace s = String.mk (s.data.take (s.data.length + 1)) := by
      simp [trim.TrimSpace, h1, trim.findLastNot, h2]
    rw [this, List.take_of_length_le (by omega)]

/-- C9 witness: the theorem applied at " x " (mixed input) and at " \n"
(all-whitespace input). -/
theorem c9_trimspace_spec_witness :
    trim.TrimSpace " x " = "x" ∧ trim.TrimSpace " \n" = " \n" := by
  constructor
  · have h := (c9_trimspace_spec " x ").1 (by decide)
    rcases h with ⟨i, j, hi, hj, hres⟩
    have hi1 : trim.findIdxNot trim.isTrimWs " x ".data = some 1 := by decide
    have hj1 : trim.findLastNot trim.isTrimWs " x ".data = some 1 := by decide
    rw [hi1] at hi
    rw [hj1] at hj
    injection hi with hieq
    injection hj with hjeq
    subst hieq
    subst hjeq
    exact hres
  · exact (c9_trimspace_spec " \n").2 (by decide)

namespace adventofcode

theorem inRange64_iff {v : Int} : inRange64 v = true ↔ (int64Min ≤ v ∧ v ≤ int64Max) := by
  simp [inRange64]

theorem inRange32_iff {v : Int} : inRange32 v = true ↔ (int32Min ≤ v ∧ v ≤ int32Max) := by
  simp [inRange32]

theorem chk64_some {v : Int} (h : int64Min ≤ v ∧ v ≤ int64Max) : chk64 v = some v := by
  simp [chk64, inRange64_iff.mpr h]

theorem distanceTo_eq (p q : geometry.Pos)
    (h : |p.x - q.x| + |p.y - q.y| ≤ int64Max) :
    p.DistanceTo q = some (|p.x - q.x| + |p.y - q.y|) := by
  have hx : 0 ≤ |p.x - q.x| := abs_nonneg _
  have hy : 0 ≤ |p.y - q.y| := abs_nonneg _
  have hx1 : |p.x - q.x| ≤ int64Max := by omega
  have hy1 : |p.y - q.y| ≤ int64Max := by omega
  have hmin : int64Min ≤ -int64Max := by norm_num [int64Min, int64Max]
  have r1 : chk64 (p.x - q.x) = some (p.x - q.x) :=
    chk64_some ⟨le_trans hmin (by have := abs_le.mp hx1; omega), (abs_le.mp hx1).2⟩
  have r2 : chk64 |p.x - q.x| = some |p.x - q.x| :=
    chk64_some ⟨le_trans hmin (by omega), hx1⟩
  have r3 : chk64 (p.y - q.y) = some (p.y - q.y) :=
    chk64_some ⟨le_trans hmin (by have := abs_le.mp hy1; omega), (abs_le.mp hy1).2⟩
  have r4 : chk64 |p.y - q.y| = some |p.y - q.y| :=
    chk64_some ⟨le_trans hmin (by omega), hy1⟩
  have r5 : chk64 (|p.x - q.x| + |p.y - q.y|) = some (|p.x - q.x| + |p.y - q.y|) :=
    chk64_some ⟨le_trans hmin (by omega), h⟩
  simp [geometry.Pos.DistanceTo, r1, r2, r3, r4, r5]

end adventofcode

/-- C10: for positions whose coordinate differences and the sum of their
absolute values fit in int64, Pos::Distance is symmetric, is zero exactly
for equal positions, and the zero-argument overload equals the distance to
the origin. -/
theorem c10_pos_distance_props (a b : geometry.Pos)
    (hab : |a.x - b.x| + |a.y - b.y| ≤ int64Max) :
    a.DistanceTo b = b.DistanceTo a ∧
    (a.DistanceTo b = some 0 ↔ a = b) ∧
    a.Distance = a.DistanceTo { x := 0, y := 0 } := by
  have hba : |b.x - a.x| + |b.y - a.y| ≤ int64Max := by
    rw [abs_sub_comm b.x a.x, abs_sub_comm b.y a.y]; exact hab
  refine ⟨?_, ?_, rfl⟩
  · rw [adventofcode.distanceTo_eq a b hab, adventofcode.distanceTo_eq b a hba,
      abs_sub_comm a.x b.x, abs_sub_comm a.y b.y]
  · rw [adventofcode.distanceTo_eq a b hab]
    constructor
    · intro h0
      have hsum : |a.x - b.x| + |a.y - b.y| = 0 := by injection h0
      have hx : 0 ≤ |a.x - b.x| := abs_nonneg _
      have hy : 0 ≤ |a.y - b.y| := abs_nonneg _
      have hx0 : a.x - b.x = 0 := abs_eq_zero.mp (by omega)
      have hy0 : a.y - b.y = 0 := abs_eq_zero.mp (by omega)
      cases a; cases b
      simp only [geometry.Pos.mk.injEq]
      constructor <;> [skip; skip] <;> simp at hx0 hy0 <;> omega
    · rintro rfl
      simp

/-- C10 witness: the theorem applied at (1, 2) and (4, -1). -/
theorem c10_pos_distance_props_witness :
    geometry.Pos.DistanceTo { x := 1, y := 2 } { x := 4, y := -1 } =
      geometry.Pos.DistanceTo { x := 4, y := -1 } { x := 1, y := 2 } ∧
    ¬ (geometry.Pos.DistanceTo { x := 1, y := 2 } { x := 4, y := -1 } = some 0) := by
  have h := c10_pos_distance_props { x := 1, y := 2 } { x := 4, y := -1 } (by norm_num [int64Max])
  refine ⟨h.1, ?_⟩
  intro h0
  have := h.2.1.mp h0
  simp at this

namespace adventofcode

theorem atoiInt_nil : atoiInt [] = none := by decide

theorem atoiInt_ne_nil {l : List Char} {v : Int} (h : atoiInt l = some v) : l ≠ [] := by
  intro he; subst he; rw [atoiInt_nil] at h; cases h

theorem mapMo_length {α β : Type} (f : α → Option β) :
    ∀ (l : List α) (o : List β), mapMo f l = some o → o.length = l.length := by
  intro l
  induction l with
  | nil => intro o h; simp [mapMo] at h; subst h; rfl
  | cons a l ih =>
    intro o h
    rw [mapMo] at h
    rcases hfa : f a with _ | b <;> rw [hfa] at h
    · cases h
    · rcases hrest : mapMo f l with _ | o' <;> rw [hrest] at h
      · cases h
      · simp at h
        subst h
        simp [ih o' hrest]

theorem calLoop_group :
    ∀ (g : List (List Char)) (vs : List Int) (c : Int) (acc : List Int)
      (rest : List (List Char)),
      mapMo atoiInt g = some vs → stepsOk c vs = true →
      day01.calLoop acc c (g ++ [] :: rest) = day01.calLoop (acc ++ [c + vs.sum]) 0 rest := by
  intro g
  induction g with
  | nil =>
    intro vs c acc rest hm hs
    simp [mapMo] at hm
    subst hm
    simp [day01.calLoop]
  | cons l g' ih =>
    intro vs c acc rest hm hs
    rw [mapMo] at hm
    rcases hl : atoiInt l with _ | v <;> rw [hl] at hm
    · cases hm
    · rcases hg : mapMo atoiInt g' with _ | vs' <;> rw [hg] at hm
      · cases hm
      · simp at hm
        subst hm
        have hlne : l ≠ [] := atoiInt_ne_nil hl
        rw [stepsOk] at hs
        simp only [Bool.and_eq_true] at hs
        obtain ⟨hr, hs'⟩ := hs
        have hstep : day01.calLoop acc c ((l :: g') ++ [] :: rest) =
            day01.calLoop acc (c + v) (g' ++ [] :: rest) := by
          simp only [List.cons_append, day01.calLoop, if_neg hlne, hl, hr, if_true,
            List.append_eq]
        rw [hstep, ih vs' (c + v) acc rest hg hs']
        have harith : c + v + vs'.sum = c + (v :: vs').sum := by simp; ring
        rw [harith]

theorem calLoop_groups :
    ∀ (groups : List (List (List Char))) (valss : List (List Int)) (acc : List Int),
      mapMo (fun g => mapMo atoiInt g) groups = some valss →
      (∀ vs ∈ valss, stepsOk 0 vs = true) →
      day01.calLoop acc 0 (List.flatten (groups.map (fun g => g ++ [[]]))) =
        some (.ok (acc ++ valss.map List.sum)) := by
  intro groups
  induction groups with
  | nil =>
    intro valss acc hm hr
    simp [mapMo] at hm
    subst hm
    simp [day01.calLoop]
  | cons g gs ih =>
    intro valss acc hm hr
    rw [mapMo] at hm
    rcases hg : mapMo atoiInt g with _ | vs <;> rw [hg] at hm
    · cases hm
    · rcases hgs : mapMo (fun g => mapMo atoiInt g) gs with _ | valss' <;> rw [hgs] at hm
      · cases hm
      · simp at hm
        subst hm
        have hflat : List.flatten ((g :: gs).map (fun g => g ++ [[]])) =
            g ++ [] :: List.flatten (gs.map (fun g => g ++ [[]])) := by
          simp
        rw [hflat,
          calLoop_group g vs 0 acc _ hg (hr vs (by simp)),
          ih valss' (acc ++ [0 + vs.sum]) hgs (fun x hx => hr x (by simp [hx]))]
        simp

theorem listMax_foldl :
    ∀ (xs : List Int) (a : Int),
      a ≤ xs.foldl max a ∧ (∀ x ∈ xs, x ≤ xs.foldl max a) ∧
        (xs.foldl max a = a ∨ xs.foldl max a ∈ xs) := by
  intro xs
  induction xs with
  | nil => intro a; simp
  | cons x xs ih =>
    intro a
    have h := ih (max a x)
    refine ⟨le_trans (le_max_left a x) h.1, ?_, ?_⟩
    · intro y hy
      rcases List.mem_cons.mp hy with hy1 | hy1
      · subst hy1
        exact le_trans (le_max_right a y) h.1
      · exact h.2.1 y hy1
    · rcases h.2.2 with h1 | h1
      · rcases max_choice a x with h2 | h2
        · left
          show List.foldl max (max a x) xs = a
          rw [h1, h2]
        · right
          show List.foldl max (max a x) xs ∈ x :: xs
          rw [h1, h2]
          exact List.mem_cons_self x xs
      · right
        show List.foldl max (max a x) xs ∈ x :: xs
        exact List.mem_cons_of_mem x h1

/-- Certification that listMax is the maximum of a non-empty list. -/
theorem listMax_spec (l : List Int) (h : l ≠ []) :
    listMax l ∈ l ∧ ∀ x ∈ l, x ≤ listMax l := by
  rcases l with _ | ⟨x, xs⟩
  · cases h rfl
  · have hf := listMax_foldl xs x
    constructor
    · rcases hf.2.2 with h1 | h1
      · simp [listMax, h1]
      · simp [listMax]; right; exact h1
    · intro y hy
      rcases List.mem_cons.mp hy with hy1 | hy1
      · subst hy1; exact hf.1
      · exact hf.2.1 y hy1

end adventofcode

/-- C4, corrected: for a newline-terminated input made of groups of
decimal-integer lines separated by single blank lines, day01 Part1 returns
the decimal representation of the maximum group sum, provided additionally
that every line's value fits in int (otherwise parsing fails with an error)
and every running group sum stays in int range (otherwise the int addition
overflows, which is UB). -/
theorem c4_day01_part1_max_group_sum (s : String)
    (groups : List (List (List Char))) (valss : List (List Int))
    (hsplit : splitNl s.data = List.flatten (groups.map (fun g => g ++ [[]])))
    (hne : groups ≠ [])
    (_hgne : ∀ g ∈ groups, g ≠ [])
    (hparse : mapMo (fun g => mapMo atoiInt g) groups = some valss)
    (hrange : ∀ vs ∈ valss, stepsOk 0 vs = true) :
    day01.Part1 s = some (.ok (toString (listMax (valss.map List.sum)))) := by
  have hcal : day01.calories s = some (.ok (valss.map List.sum)) := by
    rw [day01.calories, hsplit, adventofcode.calLoop_groups groups valss [] hparse hrange]
    simp
  have hlen : valss.length = groups.length := adventofcode.mapMo_length _ _ _ hparse
  rcases hv : valss with _ | ⟨vs, valss'⟩
  · subst hv
    have hg0 : groups = [] := List.length_eq_zero.mp (by simpa using hlen.symm)
    exact absurd hg0 hne
  · subst hv
    simp only [day01.Part1, hcal, List.map_cons]
    rfl

/-- C4 witness: the theorem applied to "1\n2\n\n3\n" (groups 1+2 and 3). -/
theorem c4_day01_part1_max_group_sum_witness :
    day01.Part1 "1\n2\n\n3\n" = some (.ok "3") := by
  have h := c4_day01_part1_max_group_sum "1\n2\n\n3\n"
    [["1".data, "2".data], ["3".data]] [[1, 2], [3]]
    (by decide) (by decide) (by decide) (by decide) (by decide)
  simpa using h

/-- C4 counterexample: "2147483648\n" is a newline-terminated input with a
single group holding the single decimal-integer line 2147483648, so the
claim says Part1 returns "2147483648"; the code returns an invalid-argument
error because absl::SimpleAtoi rejects values that do not fit in int. -/
theorem c4_cex_out_of_int_range :
    (∀ c ∈ ("2147483648").data, c.isDigit = true) ∧
    splitNl ("2147483648\n").data = [("2147483648").data, []] ∧
    day01.Part1 "2147483648\n" = some (.error (.invalidArgument
      "invalid line couldn't be parsed as an integer: 2147483648")) ∧
    day01.Part1 "2147483648\n" ≠ some (.ok "2147483648") := by
  refine ⟨by decide, by decide, by decide, by decide⟩

namespace adventofcode

theorem insertDesc_perm (x : Int) : ∀ l : List Int, (day01.insertDesc x l).Perm (x :: l) := by
  intro l
  induction l with
  | nil => simp [day01.insertDesc]
  | cons y ys ih =>
    rw [day01.insertDesc]
    by_cases hxy : y ≤ x
    · rw [if_pos hxy]
    · rw [if_neg hxy]
      exact (List.Perm.cons y ih).trans (List.Perm.swap x y ys)

theorem sortDesc_perm : ∀ l : List Int, (day01.sortDesc l).Perm l := by
  intro l
  induction l with
  | nil => simp [day01.sortDesc]
  | cons x xs ih =>
    have : day01.sortDesc (x :: xs) = day01.insertDesc x (day01.sortDesc xs) := rfl
    rw [this]
    exact (insertDesc_perm x (day01.sortDesc xs)).trans (List.Perm.cons x ih)

theorem sortDesc_length (l : List Int) : (day01.sortDesc l).length = l.length :=
  (sortDesc_perm l).length_eq

theorem insertDesc_sorted (x : Int) :
    ∀ {l : List Int}, l.Sorted (fun a b => b ≤ a) →
      (day01.insertDesc x l).Sorted (fun a b => b ≤ a) := by
  intro l
  induction l with
  | nil => intro _; simp [day01.insertDesc]
  | cons y ys ih =>
    intro h
    rw [List.sorted_cons] at h
    rw [day01.insertDesc]
    by_cases hxy : y ≤ x
    · rw [if_pos hxy]
      rw [List.sorted_cons]
      refine ⟨?_, List.sorted_cons.mpr h⟩
      intro b hb
      rcases List.mem_cons.mp hb with hb1 | hb1
      · subst hb1; exact hxy
      · exact le_trans (h.1 b hb1) hxy
    · rw [if_neg hxy]
      rw [List.sorted_cons]
      refine ⟨?_, ih h.2⟩
      intro b hb
      have : b ∈ x :: ys := (insertDesc_perm x ys).mem_iff.mp hb
      rcases List.mem_cons.mp this with hb1 | hb1
      · subst hb1; omega
      · exact h.1 b hb1

/-- Certification that sortDesc sorts into weakly decreasing order. -/
theorem sortDesc_sorted : ∀ l : List Int, (day01.sortDesc l).Sorted (fun a b => b ≤ a) := by
  intro l
  induction l with
  | nil => simp [day01.sortDesc]
  | cons x xs ih => exact insertDesc_sorted x ih

end adventofcode

/-- C5, corrected: for a newline-terminated input of at least three groups
of decimal-integer lines separated by single blank lines, day01 Part2
returns the decimal representation of the sum of the three largest group
sums, provided additionally that every line's value fits in int (otherwise
parsing fails with an error), every running group sum stays in int range,
and the two int additions of the three largest sums stay in int range
(otherwise UB). -/
theorem c5_day01_part2_top_three_sum (s : String)
    (groups : List (List (List Char))) (valss : List (List Int))
    (hsplit : splitNl s.data = List.flatten (groups.map (fun g => g ++ [[]])))
    (hne3 : 3 ≤ groups.length)
    (_hgne : ∀ g ∈ groups, g ≠ [])
    (hparse : mapMo (fun g => mapMo atoiInt g) groups = some valss)
    (hrange : ∀ vs ∈ valss, stepsOk 0 vs = true)
    (htop : stepsOk 0 ((day01.sortDesc (valss.map List.sum)).take 3) = true) :
    day01.Part2 s = some (.ok (toString
      (((day01.sortDesc (valss.map List.sum)).take 3).sum))) := by
  have hcal : day01.calories s = some (.ok (valss.map List.sum)) := by
    rw [day01.calories, hsplit, adventofcode.calLoop_groups groups valss [] hparse hrange]
    simp
  have hlen : (day01.sortDesc (valss.map List.sum)).length = valss.length := by
    rw [adventofcode.sortDesc_length, List.length_map]
  have hlen3 : 3 ≤ (day01.sortDesc (valss.map List.sum)).length := by
    rw [hlen, adventofcode.mapMo_length _ _ _ hparse]
    exact hne3
  rcases hL : day01.sortDesc (valss.map List.sum) with _ | ⟨a, L1⟩
  · rw [hL] at hlen3; simp at hlen3
  · rcases L1 with _ | ⟨b, L2⟩
    · rw [hL] at hlen3; simp at hlen3
    · rcases L2 with _ | ⟨c, L3⟩
      · rw [hL] at hlen3; simp at hlen3
      · rw [hL] at htop
        simp only [List.take, stepsOk, Bool.and_eq_true] at htop
        obtain ⟨h1, h2, h3, -⟩ := htop
        rw [zero_add] at h1 h2 h3
        simp only [day01.Part2, hcal, hL, h2, if_true, h3]
        have : a + b + c = ([a, b, c] : List Int).sum := by simp; ring
        rw [this]
        rfl

/-- C5 witness: the theorem applied to "5\n\n1\n\n3\n\n4\n" (four groups;
the three largest sums are 5, 4, 3). -/
theorem c5_day01_part2_top_three_sum_witness :
    day01.Part2 "5\n\n1\n\n3\n\n4\n" = some (.ok "12") := by
  have h := c5_day01_part2_top_three_sum "5\n\n1\n\n3\n\n4\n"
    [["5".data], ["1".data], ["3".data], ["4".data]] [[5], [1], [3], [4]]
    (by decide) (by decide) (by decide) (by decide) (by decide) (by decide)
  simpa using h

/-- C5 counterexample: "2147483648\n\n0\n\n0\n" is a newline-terminated
input of three groups of decimal-integer lines, so the claim says Part2
returns "2147483648" (the three largest group sums being 2147483648, 0 and
0); the code returns an invalid-argument error because absl::SimpleAtoi
rejects values that do not fit in int. -/
theorem c5_cex_out_of_int_range :
    splitNl ("2147483648\n\n0\n\n0\n").data =
      [("2147483648").data, [], ("0").data, [], ("0").data, []] ∧
    day01.Part2 "2147483648\n\n0\n\n0\n" = some (.error (.invalidArgument
      "invalid line couldn't be parsed as an integer: 2147483648")) ∧
    day01.Part2 "2147483648\n\n0\n\n0\n" ≠ some (.ok "2147483648") := by
  refine ⟨by decide, by decide, by decide⟩

namespace adventofcode

theorem calLoop_error_iff :
    ∀ (ls : List (List Char)) (acc : List Int) (c : Int), sumsOk c ls = true →
      ((∃ e, day01.calLoop acc c ls = some (.error e)) ↔
        ∃ l ∈ ls, l ≠ [] ∧ atoiInt l = none) := by
  intro ls
  induction ls with
  | nil =>
    intro acc c _
    simp [day01.calLoop]
  | cons l ls' ih =>
    intro acc c hsafe
    by_cases hl0 : l = []
    · subst hl0
      have hs2 : sumsOk 0 ls' = true := hsafe
      constructor
      · intro ⟨e, he⟩
        rcases (ih (acc ++ [c]) 0 hs2).mp ⟨e, he⟩ with ⟨x, hx, hxp⟩
        exact ⟨x, by simp [hx], hxp⟩
      · intro ⟨x, hx, hxp⟩
        have hx' : x ∈ ls' := by
          rcases List.mem_cons.mp hx with h1 | h1
          · exact absurd h1 hxp.1
          · exact h1
        exact (ih (acc ++ [c]) 0 hs2).mpr ⟨x, hx', hxp⟩
    · rcases ha : atoiInt l with _ | v
      · constructor
        · intro _
          exact ⟨l, by simp, hl0, ha⟩
        · intro _
          refine ⟨.invalidArgument
            ("invalid line couldn't be parsed as an integer: " ++ String.mk l), ?_⟩
          simp [day01.calLoop, if_neg hl0, ha]
      · simp only [sumsOk, if_neg hl0, ha, Bool.and_eq_true] at hsafe
        obtain ⟨hr, hs'⟩ := hsafe
        have hred : day01.calLoop acc c (l :: ls') = day01.calLoop acc (c + v) ls' := by
          simp [day01.calLoop, if_neg hl0, ha, hr]
        rw [hred, ih acc (c + v) hs']
        constructor
        · intro ⟨x, hx, hxp⟩
          exact ⟨x, by simp [hx], hxp⟩
        · intro ⟨x, hx, hxp⟩
          rcases List.mem_cons.mp hx with hx1 | hx1
          · subst hx1
            rw [ha] at hxp
            cases hxp.2
          · exact ⟨x, hx1, hxp⟩

theorem calLoop_error_inv :
    ∀ (ls : List (List Char)) (acc : List Int) (c : Int) (e : Status),
      day01.calLoop acc c ls = some (.error e) → ∃ m, e = Status.invalidArgument m := by
  intro ls
  induction ls with
  | nil =>
    intro acc c e h
    rw [day01.calLoop] at h
    cases h
  | cons l ls' ih =>
    intro acc c e h
    by_cases hl0 : l = []
    · subst hl0
      exact ih (acc ++ [c]) 0 e h
    · rcases ha : atoiInt l with _ | v
      · have hred : day01.calLoop acc c (l :: ls') = some (.error (.invalidArgument
            ("invalid line couldn't be parsed as an integer: " ++ String.mk l))) := by
          simp [day01.calLoop, if_neg hl0, ha]
        rw [hred] at h
        simp at h
        exact ⟨_, h.symm⟩
      · rcases hr : inRange32 (c + v) with _ | _
        · have hred : day01.calLoop acc c (l :: ls') = none := by
            simp [day01.calLoop, if_neg hl0, ha, hr]
          rw [hred] at h
          cases h
        · have hred : day01.calLoop acc c (l :: ls') = day01.calLoop acc (c + v) ls' := by
            simp [day01.calLoop, if_neg hl0, ha, hr]
          rw [hred] at h
          exact ih _ _ _ h

theorem part1_error_eq (s : String) (e : Status) :
    day01.Part1 s = some (.error e) ↔ day01.calories s = some (.error e) := by
  rcases hc : day01.calories s with _ | r
  · simp [day01.Part1, hc]
  · rcases r with e' | sums
    · simp [day01.Part1, hc]
    · rcases sums with _ | ⟨x, xs⟩ <;> simp [day01.Part1, hc]

theorem part2_error_eq (s : String) (e : Status) :
    day01.Part2 s = some (.error e) ↔ day01.calories s = some (.error e) := by
  rcases hc : day01.calories s with _ | r
  · simp [day01.Part2, hc]
  · rcases r with e' | sums
    · simp [day01.Part2, hc]
    · simp only [day01.Part2, hc]
      rcases hL : day01.sortDesc sums with _ | ⟨a, L1⟩
      · simp
      · rcases L1 with _ | ⟨b, L2⟩
        · simp
        · rcases L2 with _ | ⟨c, L3⟩
          · simp
          · by_cases h2 : inRange32 (a + b) = true
            · by_cases h3 : inRange32 (a + b + c) = true
              · simp [h2, h3]
              · simp only [Bool.not_eq_true] at h3
                simp [h2, h3]
            · simp only [Bool.not_eq_true] at h2
              simp [h2]

end adventofcode

/-- C6, corrected: for a newline-terminated input on which no running group
sum overflows int, day01 Part1 and Part2 return an error exactly when some
non-empty line cannot be parsed as an int, and any returned error status is
invalid-argument.  (Without the no-overflow proviso the claim fails: an
overflow earlier in the input is UB and masks a later bad line, see the
counterexample.) -/
theorem c6_day01_error_iff_bad_line (s : String)
    (_hterm : s.data ≠ [] ∧ s.data.getLast? = some '\n')
    (hsafe : sumsOk 0 (splitNl s.data) = true) :
    ((∃ e, day01.Part1 s = some (.error e)) ↔
      ∃ l ∈ splitNl s.data, l ≠ [] ∧ atoiInt l = none) ∧
    ((∃ e, day01.Part2 s = some (.error e)) ↔
      ∃ l ∈ splitNl s.data, l ≠ [] ∧ atoiInt l = none) ∧
    (∀ e, (day01.Part1 s = some (.error e) ∨ day01.Part2 s = some (.error e)) →
      ∃ m, e = Status.invalidArgument m) := by
  have hiff := adventofcode.calLoop_error_iff (splitNl s.data) [] 0 hsafe
  refine ⟨?_, ?_, ?_⟩
  · exact (exists_congr (fun e => adventofcode.part1_error_eq s e)).trans hiff
  · exact (exists_congr (fun e => adventofcode.part2_error_eq s e)).trans hiff
  · intro e he
    rcases he with h | h
    · exact adventofcode.calLoop_error_inv (splitNl s.data) [] 0 e
        ((adventofcode.part1_error_eq s e).mp h)
    · exact adventofcode.calLoop_error_inv (splitNl s.data) [] 0 e
        ((adventofcode.part2_error_eq s e).mp h)

/-- C6 witness: the theorem applied at "x\n", whose only non-empty line
fails to parse, forcing both parts to return an error. -/
theorem c6_day01_error_iff_bad_line_witness :
    day01.Part1 "x\n" ≠ none ∧ day01.Part2 "x\n" ≠ none := by
  have h := c6_day01_error_iff_bad_line "x\n" (by decide) (by decide)
  have hbad : ∃ l ∈ splitNl ("x\n").data, l ≠ [] ∧ atoiInt l = none :=
    ⟨("x").data, by decide, by decide, by decide⟩
  obtain ⟨e1, he1⟩ := h.1.mpr hbad
  obtain ⟨e2, he2⟩ := h.2.1.mpr hbad
  rw [he1, he2]
  simp

/-- C6 counterexample: in "2000000000\n2000000000\nx\n" the non-empty line
x cannot be parsed as an integer, so the claim says an invalid-argument
error is returned; but the int addition 2000000000 + 2000000000 overflows
first, which is UB (the model returns none, not an error). -/
theorem c6_cex_overflow_masks_error :
    ("2000000000\n2000000000\nx\n").data.getLast? = some '\n' ∧
    ("x").data ∈ splitNl ("2000000000\n2000000000\nx\n").data ∧
    atoiInt ("x").data = none ∧
    day01.Part1 "2000000000\n2000000000\nx\n" = none ∧
    day01.Part2 "2000000000\n2000000000\nx\n" = none := by
  refine ⟨by decide, by decide, by decide, by decide, by decide⟩

namespace adventofcode

theorem char_toNat_inj {a b : Char} (h : a.toNat = b.toNat) : a = b := by
  apply Char.eq_of_val_eq
  apply UInt32.eq_of_toBitVec_eq
  apply BitVec.eq_of_toNat_eq
  simpa [Char.toNat, UInt32.toNat] using h

theorem lowerIdx_inj {a b : Char} (ha : day06.isLower a = true)
    (hb : day06.isLower b = true) (h : day06.lowerIdx a = day06.lowerIdx b) : a = b := by
  simp only [day06.isLower, Bool.and_eq_true, decide_eq_true_eq] at ha hb
  apply char_toNat_inj
  simp only [day06.lowerIdx] at h
  omega

theorem lowerIdx_lt_26 {a : Char} (ha : day06.isLower a = true) : day06.lowerIdx a < 26 := by
  simp only [day06.isLower, Bool.and_eq_true, decide_eq_true_eq] at ha
  simp only [day06.lowerIdx]
  omega

theorem mod_succ_eq {len cap : Nat} (hcap : 0 < cap) :
    (len + 1) % cap = if len % cap + 1 = cap then 0 else len % cap + 1 := by
  have hlt : len % cap < cap := Nat.mod_lt _ hcap
  have h1 : (len + 1) % cap = (len % cap + 1) % cap := by
    conv_lhs => rw [← Nat.mod_add_mod]
  by_cases hc : len % cap + 1 = cap
  · rw [if_pos hc, h1, hc, Nat.mod_self]
  · rw [if_neg hc, h1, Nat.mod_eq_of_lt (by omega)]

theorem win_length (cap : Nat) (l : List Char) :
    (day06.win cap l).length = min l.length cap := by
  simp only [day06.win, List.length_drop]
  omega

theorem win_eq_self {cap : Nat} {l : List Char} (h : l.length ≤ cap) :
    day06.win cap l = l := by
  simp only [day06.win]
  rw [show l.length - cap = 0 by omega, List.drop_zero]

theorem win_append_ge {cap : Nat} {pre : List Char} (c : Char)
    (hge : cap ≤ pre.length) (hcap : 0 < cap) :
    day06.win cap (pre ++ [c]) = (day06.win cap pre).drop 1 ++ [c] := by
  simp only [day06.win, List.length_append, List.length_cons, List.length_nil]
  rw [List.drop_append_of_le_length (by omega), List.drop_drop]
  congr 2
  omega

theorem count_int_sub_one_eq_zero {n : Nat} : ((n : Int) - 1 = 0) ↔ n = 1 := by omega

theorem toFinset_card_append_singleton (m : List Char) (c : Char) :
    ((m ++ [c]).toFinset.card : Int) =
      (m.toFinset.card : Int) + (if m.count c = 0 then 1 else 0) := by
  have hts : (m ++ [c]).toFinset = insert c m.toFinset := by
    ext x
    simp [List.mem_toFinset, or_comm]
  rw [hts]
  by_cases hc : c ∈ m
  · rw [Finset.insert_eq_self.mpr (List.mem_toFinset.mpr hc)]
    rw [if_neg (by simpa [List.count_eq_zero] using hc)]
    ring
  · rw [Finset.card_insert_of_not_mem (by simpa [List.mem_toFinset] using hc)]
    rw [if_pos (List.count_eq_zero.mpr hc)]
    push_cast
    ring

theorem toFinset_card_erase (m : List Char) (h : Char) (hmem : h ∈ m) :
    ((m.erase h).toFinset.card : Int) =
      (m.toFinset.card : Int) - (if m.count h = 1 then 1 else 0) := by
  by_cases h1 : m.count h = 1
  · have hts : (m.erase h).toFinset = m.toFinset.erase h := by
      ext x
      by_cases hx : x = h
      · subst hx
        simp only [List.mem_toFinset, Finset.mem_erase, ne_eq, not_true_eq_false,
          false_and, iff_false]
        intro hmm
        have := List.count_pos_iff.mpr hmm
        rw [List.count_erase_self] at this
        omega
      · simp only [List.mem_toFinset, Finset.mem_erase, ne_eq, hx, not_false_eq_true,
          true_and]
        constructor
        · intro hxm; exact (List.mem_of_mem_erase hxm)
        · intro hxm
          have : (m.erase h).count x = m.count x := List.count_erase_of_ne hx m
          have hpos := List.count_pos_iff.mpr hxm
          exact List.count_pos_iff.mp (by omega)
    rw [hts, if_pos h1]
    have hcard := Finset.card_erase_of_mem (List.mem_toFinset.mpr hmem)
    rw [hcard]
    have hpos : 0 < m.toFinset.card := Finset.card_pos.mpr ⟨h, List.mem_toFinset.mpr hmem⟩
    push_cast [Nat.cast_sub hpos]
    ring
  · have hts : (m.erase h).toFinset = m.toFinset := by
      ext x
      by_cases hx : x = h
      · subst hx
        have hcnt := List.count_pos_iff.mpr hmem
        have : 0 < (m.erase x).count x := by
          rw [List.count_erase_self]
          omega
        simp only [List.mem_toFinset]
        exact ⟨fun _ => hmem, fun _ => List.count_pos_iff.mp this⟩
      · simp only [List.mem_toFinset]
        constructor
        · intro hxm; exact List.mem_of_mem_erase hxm
        · intro hxm
          have : (m.erase h).count x = m.count x := List.count_erase_of_ne hx m
          have hpos := List.count_pos_iff.mpr hxm
          exact List.count_pos_iff.mp (by omega)
    rw [hts, if_neg h1]
    ring

theorem mod_shift_ne {len cap j : Nat} (hcap : 0 < cap) (hj : j + 1 < cap) :
    (len + 1 + j) % cap ≠ len % cap := by
  intro heq
  have h1 : (len % cap + (1 + j)) % cap = (len + (1 + j)) % cap := Nat.mod_add_mod len cap (1 + j)
  have h2 : len + (1 + j) = len + 1 + j := by omega
  rw [h2, heq] at h1
  have hr : len % cap < cap := Nat.mod_lt _ hcap
  by_cases hs : len % cap + (1 + j) < cap
  · rw [Nat.mod_eq_of_lt hs] at h1
    omega
  · rw [Nat.mod_eq_sub_mod (by omega), Nat.mod_eq_of_lt (by omega)] at h1
    omega

theorem added_good {b : day06.Buffer} {m : List Char} {c : Char}
    (hlen : b.seen.length = 26)
    (hseen : ∀ x, day06.isLower x = true →
      b.seen[day06.lowerIdx x]? = some ((m.count x : Int)))
    (hdiff : b.different = (m.toFinset.card : Int))
    (hc : day06.isLower c = true) :
    ∃ b', b.added c = some b' ∧
      b'.buf = b.buf ∧ b'.bufStart = b.bufStart ∧ b'.capacity = b.capacity ∧
      b'.size = b.size ∧ b'.seen.length = 26 ∧
      (∀ x, day06.isLower x = true →
        b'.seen[day06.lowerIdx x]? = some (((m ++ [c]).count x : Int))) ∧
      b'.different = (((m ++ [c]).toFinset.card : Int)) := by
  have hidx : day06.lowerIdx c < 26 := lowerIdx_lt_26 hc
  have hgetc : (b.seen[day06.lowerIdx c]?).getD 0 = (m.count c : Int) := by
    rw [hseen c hc]; rfl
  refine ⟨{ b with
      seen := b.seen.set (day06.lowerIdx c) ((m.count c : Int) + 1),
      different := if (m.count c : Int) + 1 = 1 then b.different + 1 else b.different },
    ?_, rfl, rfl, rfl, rfl, by simp [hlen], ?_, ?_⟩
  · rw [day06.Buffer.added, if_pos hc]
    simp only [hgetc]
  · intro x hx
    by_cases hxc : day06.lowerIdx x = day06.lowerIdx c
    · have hxc' : x = c := lowerIdx_inj hx hc hxc
      subst hxc'
      simp only [hxc]
      rw [List.getElem?_set_self (by omega)]
      have hcount : (m ++ [x]).count x = m.count x + 1 := by
        simp [List.count_append]
      rw [hcount]
      push_cast
      ring_nf
    · have hxc' : x ≠ c := fun he => hxc (by rw [he])
      rw [List.getElem?_set_ne (Ne.symm hxc)]
      rw [hseen x hx]
      have hcount : (m ++ [c]).count x = m.count x := by
        simp [List.count_append, List.count_cons, hxc']
      rw [hcount]
  · show (if (m.count c : Int) + 1 = 1 then b.different + 1 else b.different) = _
    rw [hdiff, toFinset_card_append_singleton m c]
    by_cases h0 : m.count c = 0
    · rw [if_pos (by omega : (m.count c : Int) + 1 = 1), if_pos h0]
    · rw [if_neg (by omega : ¬((m.count c : Int) + 1 = 1)), if_neg h0]
      ring

theorem dropped_good {b : day06.Buffer} {m : List Char} {h : Char}
    (hlen : b.seen.length = 26)
    (hseen : ∀ x, day06.isLower x = true →
      b.seen[day06.lowerIdx x]? = some ((m.count x : Int)))
    (hdiff : b.different = (m.toFinset.card : Int))
    (hh : day06.isLower h = true) (hmem : h ∈ m) :
    ∃ b', b.dropped h = some b' ∧
      b'.buf = b.buf ∧ b'.bufStart = b.bufStart ∧ b'.capacity = b.capacity ∧
      b'.size = b.size ∧ b'.seen.length = 26 ∧
      (∀ x, day06.isLower x = true →
        b'.seen[day06.lowerIdx x]? = some (((m.erase h).count x : Int))) ∧
      b'.different = (((m.erase h).toFinset.card : Int)) := by
  have hidx : day06.lowerIdx h < 26 := lowerIdx_lt_26 hh
  have hcnt : 0 < m.count h := List.count_pos_iff.mpr hmem
  have hgeth : (b.seen[day06.lowerIdx h]?).getD 0 = (m.count h : Int) := by
    rw [hseen h hh]; rfl
  refine ⟨{ b with
      seen := b.seen.set (day06.lowerIdx h) ((m.count h : Int) - 1),
      different := if (m.count h : Int) - 1 = 0 then b.different - 1 else b.different },
    ?_, rfl, rfl, rfl, rfl, by simp [hlen], ?_, ?_⟩
  · rw [day06.Buffer.dropped, if_pos hh]
    simp only [hgeth]
  · intro x hx
    by_cases hxh : day06.lowerIdx x = day06.lowerIdx h
    · have hxh' : x = h := lowerIdx_inj hx hh hxh
      subst hxh'
      simp only [hxh]
      rw [List.getElem?_set_self (by omega)]
      rw [List.count_erase_self]
      congr 1
      omega
    · have hxh' : x ≠ h := fun he => hxh (by rw [he])
      rw [List.getElem?_set_ne (Ne.symm hxh)]
      rw [hseen x hx, List.count_erase_of_ne hxh']
  · show (if (m.count h : Int) - 1 = 0 then b.different - 1 else b.different) = _
    rw [hdiff, toFinset_card_erase m h hmem]
    by_cases h1 : m.count h = 1
    · rw [if_pos (by omega : (m.count h : Int) - 1 = 0), if_pos h1]
    · rw [if_neg (by omega : ¬((m.count h : Int) - 1 = 0)), if_neg h1]
      ring

theorem push_good {cap : Nat} {pre : List Char} {b : day06.Buffer} {c : Char}
    (hcap : 0 < cap) (hcap14 : cap ≤ 14)
    (hb : day06.goodBuffer cap pre b)
    (hc : day06.isLower c = true)
    (hpre : ∀ x ∈ pre, day06.isLower x = true) :
    ∃ b', b.push c = some b' ∧ day06.goodBuffer cap (pre ++ [c]) b' := by
  obtain ⟨hbcap, hbuf14, hseenlen, hsize, hstart, hring, hseen, hdiff⟩ := hb
  by_cases hlt : pre.length < cap
  · -- below capacity: write at index size_, grow
    have hwin : day06.win cap pre = pre := win_eq_self (by omega)
    rw [hwin] at hseen hdiff
    have hszv : b.size = pre.length := by rw [hsize]; omega
    obtain ⟨b', hadd, hbuf0, hstart0, hcap0, hsize0, hseenlen', hseen', hdiff'⟩ :=
      added_good (b := { b with buf := b.buf.set b.size c, size := b.size + 1 })
        (m := pre) (c := c) hseenlen hseen hdiff hc
    have hbuf' : b'.buf = b.buf.set b.size c := hbuf0
    have hstart' : b'.bufStart = b.bufStart := hstart0
    have hcap' : b'.capacity = b.capacity := hcap0
    have hsize' : b'.size = b.size + 1 := hsize0
    have hszlt : b.size < b.capacity := by rw [hszv, hbcap]; omega
    have hsz14 : b.size < 14 := by rw [hszv]; omega
    have hwin1 : day06.win cap (pre ++ [c]) = pre ++ [c] :=
      win_eq_self (by simp; omega)
    refine ⟨b', ?_, ?_, ?_, ?_, ?_, ?_, ?_, ?_, ?_⟩
    · rw [day06.Buffer.push, if_pos hszlt, if_pos hsz14]
      exact hadd
    · rw [hcap']; exact hbcap
    · rw [hbuf', List.length_set]; exact hbuf14
    · exact hseenlen'
    · rw [hsize', hszv]
      simp only [List.length_append, List.length_cons, List.length_nil]
      omega
    · rw [hstart', hstart, if_pos hlt]
      simp only [List.length_append, List.length_cons, List.length_nil]
      by_cases h2 : pre.length + 1 < cap
      · rw [if_pos h2]
      · rw [if_neg h2]
        have hpc : pre.length + 1 = cap := by omega
        rw [hpc, Nat.mod_self]
    · intro j hj
      rw [hsize', hszv] at hj
      have hjcap : j < cap := by omega
      rw [hstart', hstart, if_pos hlt, Nat.zero_add, Nat.mod_eq_of_lt hjcap, hbuf', hwin1]
      by_cases hjl : j < pre.length
      · rw [List.getElem?_set_ne (by omega)]
        have hold := hring j (by omega)
        rw [hstart, if_pos hlt, Nat.zero_add, Nat.mod_eq_of_lt hjcap, hwin] at hold
        rw [hold, List.getElem?_append_left hjl]
      · have hjeq : j = pre.length := by omega
        subst hjeq
        rw [hszv, List.getElem?_set_self (by omega), List.getElem?_concat_length]
    · intro x hx
      rw [hwin1]
      exact hseen' x hx
    · rw [hwin1]
      exact hdiff'
  · -- at capacity: drop the oldest, overwrite its cell
    have hge : cap ≤ pre.length := by omega
    have hszv : b.size = cap := by rw [hsize]; omega
    have hnotlt : ¬ b.size < b.capacity := by rw [hszv, hbcap]; omega
    have hstartv : b.bufStart = pre.length % cap := by rw [hstart, if_neg (by omega)]
    have hstartlt : b.bufStart < cap := by rw [hstartv]; exact Nat.mod_lt _ hcap
    have hwl : (day06.win cap pre).length = cap := by rw [win_length]; omega
    rcases hw : day06.win cap pre with _ | ⟨h, t⟩
    · rw [hw] at hwl; simp at hwl; omega
    · have htl : t.length = cap - 1 := by rw [hw] at hwl; simp at hwl; omega
      have hmemwin : h ∈ day06.win cap pre := by rw [hw]; exact List.mem_cons_self h t
      have hhpre : h ∈ pre := List.drop_subset _ _ hmemwin
      have hhl : day06.isLower h = true := hpre h hhpre
      have hread : b.buf[b.bufStart]? = some h := by
        have h0 := hring 0 (by omega)
        rw [Nat.add_zero, Nat.mod_eq_of_lt hstartlt, hw] at h0
        simpa using h0
      rw [hw] at hseen hdiff
      obtain ⟨b3, hdrop, hbuf30, hstart30, hcap30, hsize30, hseenlen3, hseen3, hdiff3⟩ :=
        dropped_good (b := { b with bufStart := (pre.length + 1) % cap })
          (m := h :: t) (h := h) hseenlen hseen hdiff hhl (List.mem_cons_self h t)
      have hbuf3 : b3.buf = b.buf := hbuf30
      have hstart3 : b3.bufStart = (pre.length + 1) % cap := hstart30
      have hcap3 : b3.capacity = b.capacity := hcap30
      have hsize3 : b3.size = b.size := hsize30
      rw [List.erase_cons_head] at hseen3 hdiff3
      obtain ⟨b', hadd, hbuf0, hstart0, hcap0, hsize0, hseenlen', hseen', hdiff'⟩ :=
        added_good (b := { b3 with buf := b3.buf.set b.bufStart c })
          (m := t) (c := c) hseenlen3 hseen3 hdiff3 hc
      have hbuf' : b'.buf = b3.buf.set b.bufStart c := hbuf0
      have hstart' : b'.bufStart = b3.bufStart := hstart0
      have hcap' : b'.capacity = b3.capacity := hcap0
      have hsize' : b'.size = b3.size := hsize0
      have hs2 : (if b.bufStart + 1 = b.size then 0 else b.bufStart + 1) =
          (pre.length + 1) % cap := by
        rw [hstartv, hszv, mod_succ_eq hcap]
      have hwin' : day06.win cap (pre ++ [c]) = t ++ [c] := by
        rw [win_append_ge c hge hcap, hw]
        rfl
      refine ⟨b', ?_, ?_, ?_, ?_, ?_, ?_, ?_, ?_, ?_⟩
      · rw [day06.Buffer.push, if_neg hnotlt]
        simp only [hs2, hread, hdrop, hadd]
      · rw [hcap', hcap3]; exact hbcap
      · rw [hbuf', List.length_set, hbuf3]
        exact hbuf14
      · exact hseenlen'
      · rw [hsize', hsize3, hszv]
        simp only [List.length_append, List.length_cons, List.length_nil]
        omega
      · rw [hstart', hstart3]
        simp only [List.length_append, List.length_cons, List.length_nil]
        rw [if_neg (by omega)]
      · intro j hj
        rw [hsize', hsize3, hszv] at hj
        rw [hstart', hstart3, hbuf', hbuf3, hwin']
        have hidxj : ((pre.length + 1) % cap + j) % cap = (pre.length + 1 + j) % cap :=
          Nat.mod_add_mod _ _ _
        rw [hidxj]
        by_cases hjtop : j + 1 = cap
        · have hidxe : (pre.length + 1 + j) % cap = pre.length % cap := by
            have he : pre.length + 1 + j = pre.length + cap := by omega
            rw [he, Nat.add_mod_right]
          rw [hidxe, ← hstartv, List.getElem?_set_self (by rw [hbuf14]; omega)]
          have hjt : j = t.length := by omega
          rw [hjt, List.getElem?_concat_length]
        · have hjlt : j + 1 < cap := by omega
          have hne : (pre.length + 1 + j) % cap ≠ pre.length % cap :=
            mod_shift_ne hcap hjlt
          rw [List.getElem?_set_ne (by rw [hstartv]; omega)]
          have hold := hring (j + 1) (by omega)
          have hidxo : (b.bufStart + (j + 1)) % cap = (pre.length + 1 + j) % cap := by
            rw [hstartv, Nat.mod_add_mod]
            congr 1
            omega
          rw [hidxo, hw] at hold
          rw [hold, List.getElem?_cons_succ,
            List.getElem?_append_left (by omega)]
      · intro x hx
        rw [hwin']
        exact hseen' x hx
      · rw [hwin']
        exact hdiff'

theorem initBuffer_good {cap : Nat} (hcap : 0 < cap) :
    day06.goodBuffer cap [] (day06.initBuffer cap) := by
  refine ⟨rfl, by simp [day06.initBuffer], by simp [day06.initBuffer], by
    simp [day06.initBuffer], by simp [day06.initBuffer, hcap], ?_, ?_, ?_⟩
  · intro j hj
    simp [day06.initBuffer] at hj
  · intro x hx
    show (List.replicate 26 (0 : Int))[day06.lowerIdx x]? = _
    rw [List.getElem?_replicate_of_lt (lowerIdx_lt_26 hx)]
    simp [day06.win]
  · simp [day06.initBuffer, day06.win]

theorem find_range'_first {p : Nat → Bool} :
    ∀ (k s i : Nat), s ≤ i → i < s + k → p i = true →
      (∀ j, s ≤ j → j < i → p j = false) →
      (List.range' s k).find? p = some i := by
  intro k
  induction k with
  | zero => intro s i h1 h2 _ _; omega
  | succ k ih =>
    intro s i h1 h2 hpi hbef
    rw [List.range']
    by_cases hps : p s = true
    · have hsi : i = s := by
        by_contra hne
        have hlt : s < i := by omega
        rw [hbef s (le_refl s) hlt] at hps
        cases hps
      rw [List.find?_cons_of_pos _ hps, hsi]
    · have hps' : p s = false := by
        rcases hv : p s
        · rfl
        · rw [hv] at hps; exact absurd rfl hps
      have hsi : s < i := by
        by_contra hne
        have : i = s := by omega
        rw [this, hps'] at hpi
        cases hpi
      rw [List.find?_cons_of_neg _ (by rw [hps']; simp)]
      exact ih (s + 1) i (by omega) (by omega) hpi (fun j hj1 hj2 => hbef j (by omega) hj2)

theorem find_range_first {p : Nat → Bool} {n i : Nat} (hin : i < n) (hpi : p i = true)
    (hbef : ∀ j, j < i → p j = false) : (List.range n).find? p = some i := by
  rw [List.range_eq_range']
  exact find_range'_first n 0 i (Nat.zero_le i) (by omega) hpi (fun j _ hj => hbef j hj)

theorem find_range_none {p : Nat → Bool} {n : Nat} (h : ∀ j, j < n → p j = false) :
    (List.range n).find? p = none := by
  apply List.find?_eq_none.mpr
  intro x hx
  rw [h x (List.mem_range.mp hx)]
  simp

theorem nodup_iff_toFinset_card {l : List Char} :
    l.toFinset.card = l.length ↔ l.Nodup := by
  constructor
  · intro h
    rw [List.card_toFinset] at h
    rw [← List.dedup_eq_self]
    exact List.Sublist.eq_of_length (List.dedup_sublist l) h
  · exact List.toFinset_card_of_nodup

theorem wnd_take {cap : Nat} (pre rest' : List Char) (c : Char) :
    day06.wnd cap (pre ++ c :: rest') pre.length = day06.win cap (pre ++ [c]) := by
  have h1 : (pre ++ c :: rest').take (pre.length + 1) = pre ++ [c] := by
    rw [show pre ++ c :: rest' = (pre ++ [c]) ++ rest' by simp,
      show pre.length + 1 = (pre ++ [c]).length by simp, List.take_left]
  simp only [day06.wnd, day06.win, h1, List.length_append, List.length_cons,
    List.length_nil]

theorem solveLoop_spec {cap : Nat} (hcap : 0 < cap) (hcap14 : cap ≤ 14) :
    ∀ (rest pre : List Char) (b : day06.Buffer),
      (∀ x ∈ pre ++ rest, day06.isLower x = true) →
      day06.goodBuffer cap pre b →
      (∀ j, j < pre.length →
        (decide (cap ≤ j) && decide (day06.wnd cap (pre ++ rest) j).Nodup) = false) →
      day06.solveLoop cap b rest pre.length =
        (match day06.firstDistinctRun cap cap (pre ++ rest) with
         | some i => some (.ok (toString (i + 1)))
         | none => some (.error (.internal "no answer found"))) := by
  intro rest
  induction rest with
  | nil =>
    intro pre b _ _ hbef
    have hnone : day06.firstDistinctRun cap cap (pre ++ []) = none := by
      apply find_range_none
      intro j hj
      exact hbef j (by simpa using hj)
    rw [hnone]
    rfl
  | cons c rest' ih =>
    intro pre b hall hb hbef
    have hc : day06.isLower c = true := hall c (by simp)
    have hpre : ∀ x ∈ pre, day06.isLower x = true := fun x hx => hall x (by simp [hx])
    obtain ⟨b', hpush, hb'⟩ := push_good hcap hcap14 hb hc hpre
    have hdiff' := hb'.2.2.2.2.2.2.2
    have hwndw : day06.wnd cap (pre ++ c :: rest') pre.length =
        day06.win cap (pre ++ [c]) := wnd_take pre rest' c
    have hwl : (day06.win cap (pre ++ [c])).length = min (pre.length + 1) cap := by
      rw [win_length]; simp
    have hstep : day06.solveLoop cap b (c :: rest') pre.length =
        (if cap ≤ pre.length ∧ b'.different = (cap : Int) then
          some (.ok (toString (pre.length + 1)))
        else day06.solveLoop cap b' rest' (pre.length + 1)) := by
      rw [day06.solveLoop, hpush]
    rw [hstep]
    by_cases hcond : cap ≤ pre.length ∧ b'.different = (cap : Int)
    · rw [if_pos hcond]
      have hcard : (day06.win cap (pre ++ [c])).toFinset.card = cap := by
        have := hdiff'
        rw [hcond.2] at this
        exact_mod_cast this.symm
      have hnd : (day06.wnd cap (pre ++ c :: rest') pre.length).Nodup := by
        rw [hwndw]
        apply nodup_iff_toFinset_card.mp
        rw [hcard, hwl]
        omega
      have hfirst : day06.firstDistinctRun cap cap (pre ++ c :: rest') =
          some pre.length := by
        apply find_range_first
        · simp only [List.length_append, List.length_cons]
          omega
        · simp [hcond.1, hnd]
        · intro j hj
          exact hbef j hj
      rw [hfirst]
    · rw [if_neg hcond]
      have hplen : ((pre ++ [c]) ++ rest') = pre ++ c :: rest' := by simp
      have hbef' : ∀ j, j < (pre ++ [c]).length →
          (decide (cap ≤ j) &&
            decide (day06.wnd cap ((pre ++ [c]) ++ rest') j).Nodup) = false := by
        intro j hj
        rw [hplen]
        simp only [List.length_append, List.length_cons, List.length_nil] at hj
        by_cases hjp : j < pre.length
        · exact hbef j hjp
        · have hjeq : j = pre.length := by omega
          by_cases hle : cap ≤ j
          · have hnnd : ¬ (day06.wnd cap (pre ++ c :: rest') j).Nodup := by
              rw [hjeq, hwndw]
              intro hnd
              apply hcond
              refine ⟨by omega, ?_⟩
              rw [hdiff']
              have hcard := List.toFinset_card_of_nodup hnd
              rw [hcard, hwl]
              have hmin : min (pre.length + 1) cap = cap := by omega
              rw [hmin]
            simp [hnnd]
          · simp [hle]
      have hlen1 : (pre ++ [c]).length = pre.length + 1 := by simp
      have := ih (pre ++ [c]) b' (by rw [hplen]; exact hall) hb' hbef'
      rw [hlen1] at this
      rw [hplen] at this
      exact this

theorem solve_spec (s : String) (part1 : Bool)
    (hne : s.data ≠ []) (hlower : ∀ x ∈ day06.cropNl s.data, day06.isLower x = true) :
    day06.solve s part1 =
      (match day06.firstDistinctRun (if part1 then 4 else 14) (if part1 then 4 else 14)
          (day06.cropNl s.data) with
       | some i => some (.ok (toString (i + 1)))
       | none => some (.error (.internal "no answer found"))) := by
  have hcap : 0 < (if part1 then 4 else 14) ∧ (if part1 then (4 : Nat) else 14) ≤ 14 := by
    rcases part1 <;> norm_num
  rw [day06.solve, if_neg hne]
  have h := @solveLoop_spec (if part1 then 4 else 14) hcap.1 hcap.2
    (day06.cropNl s.data) [] (day06.initBuffer _) (by simpa using hlower)
    (initBuffer_good hcap.1) (by intro j hj; simp at hj)
  simpa using h

end adventofcode

/-- C3, corrected: for an input of lowercase letters (with an optional
trailing newline) the code can only report runs of four pairwise-distinct
characters ending at 1-based position at least 5, because its loop requires
i >= capacity: if such a run exists, Part1 returns the decimal 1-based
position of the character completing the first one; otherwise (in
particular when the only such run is the one ending at position 4) it
returns an internal error.  The original claim, which also counts the run
ending at position 4, fails on the code (see the counterexample). -/
theorem c3_day06_first_marker (s : String) (cs : List Char)
    (hdata : s.data = cs ∨ s.data = cs ++ ['\n'])
    (hlower : ∀ x ∈ cs, day06.isLower x = true)
    (hne : s.data ≠ []) :
    (∀ i, day06.firstDistinctRun 4 4 cs = some i →
      day06.Part1 s = some (.ok (toString (i + 1)))) ∧
    (day06.firstDistinctRun 4 4 cs = none →
      day06.Part1 s = some (.error (.internal "no answer found"))) := by
  have hcrop : day06.cropNl s.data = cs := by
    rcases hdata with h | h
    · rw [h, day06.cropNl]
      rcases hlast : cs.getLast? with _ | c
      · rfl
      · have hcmem : c ∈ cs := by
          rcases List.getLast?_eq_some_iff.mp hlast with ⟨ys, hys⟩
          rw [hys]; simp
        have hcl := hlower c hcmem
        have hcne : ¬ (c = '\n') := by
          intro he
          rw [he] at hcl
          exact absurd hcl (by decide)
        simp [hcne]
    · rw [h, day06.cropNl, List.getLast?_concat]
      simp
  have hsolve := adventofcode.solve_spec s true hne (by rw [hcrop]; exact hlower)
  rw [hcrop] at hsolve
  constructor
  · intro i hi
    show day06.solve s true = _
    rw [hsolve]
    have h4 : (if true then (4 : Nat) else 14) = 4 := rfl
    rw [h4, hi]
  · intro hnone
    show day06.solve s true = _
    rw [hsolve]
    have h4 : (if true then (4 : Nat) else 14) = 4 := rfl
    rw [h4, hnone]

/-- C3 witness: the theorem applied at "abcde", whose first run of four
distinct characters that the code can see ends at position 5. -/
theorem c3_day06_first_marker_witness : day06.Part1 "abcde" = some (.ok "5") := by
  have h := c3_day06_first_marker "abcde" ("abcde").data (Or.inl rfl) (by decide) (by decide)
  have h5 := h.1 4 (by decide)
  simpa using h5

/-- C3 counterexample: in "abcda" the first run of four pairwise-distinct
characters is a, b, c, d, completed by the character at 1-based position 4,
so the claim says Part1 returns "4"; the code's loop condition i >=
capacity skips that window and it returns "5" instead. -/
theorem c3_cex_first_window_missed :
    day06.firstDistinctRun 4 3 ("abcda").data = some 3 ∧
    toString (3 + 1) = "4" ∧
    day06.Part1 "abcda" = some (.ok "5") ∧
    ("5" : String) ≠ "4" := by
  refine ⟨by decide, by decide, by decide, by decide⟩

namespace adventofcode

theorem digitsBase5Loop_zero : ∀ fuel, day25.digitsBase5Loop fuel 0 = [] := by
  intro fuel
  cases fuel with
  | zero => rfl
  | succ f => simp [day25.digitsBase5Loop]

theorem natAbs_tdiv5_lt {n : Int} (h : n ≠ 0) : (n.tdiv 5).natAbs < n.natAbs := by
  rw [Int.natAbs_tdiv]
  have h5 : (5 : Int).natAbs = 5 := rfl
  rw [h5]
  exact Nat.div_lt_self (Nat.pos_of_ne_zero (fun hz => h (Int.natAbs_eq_zero.mp hz)))
    (by norm_num)

theorem digitsBase5Loop_congr :
    ∀ (f1 f2 : Nat) (n : Int), n.natAbs ≤ f1 → n.natAbs ≤ f2 →
      day25.digitsBase5Loop f1 n = day25.digitsBase5Loop f2 n := by
  intro f1
  induction f1 with
  | zero =>
    intro f2 n h1 h2
    have hz : n = 0 := Int.natAbs_eq_zero.mp (by omega)
    subst hz
    rw [digitsBase5Loop_zero, digitsBase5Loop_zero]
  | succ f ih =>
    intro f2 n h1 h2
    by_cases hn : n = 0
    · subst hn; rw [digitsBase5Loop_zero, digitsBase5Loop_zero]
    · have hpos : 1 ≤ n.natAbs :=
        Nat.pos_of_ne_zero (fun hz => hn (Int.natAbs_eq_zero.mp hz))
      rcases f2 with _ | f2'
      · omega
      · rw [day25.digitsBase5Loop, day25.digitsBase5Loop, if_neg hn, if_neg hn]
        have hlt := natAbs_tdiv5_lt hn
        rw [ih f2' (n.tdiv 5) (by omega) (by omega)]

theorem digitsBase5_eq {n : Int} (hn : n ≠ 0) :
    day25.digitsBase5 n = n.tmod 5 :: day25.digitsBase5 (n.tdiv 5) := by
  have hpos : 1 ≤ n.natAbs :=
    Nat.pos_of_ne_zero (fun hz => hn (Int.natAbs_eq_zero.mp hz))
  obtain ⟨m, hm⟩ : ∃ m, n.natAbs = m + 1 := ⟨n.natAbs - 1, by omega⟩
  rw [day25.digitsBase5, day25.digitsBase5, hm, day25.digitsBase5Loop, if_neg hn]
  congr 1
  exact digitsBase5Loop_congr m _ _ (by have := natAbs_tdiv5_lt hn; omega) (le_refl _)

theorem digitsBase5_spec :
    ∀ (k : Nat) (n : Int), n.natAbs ≤ k → 0 ≤ n →
      day25.valB5 (day25.digitsBase5 n) = n ∧ ∀ d ∈ day25.digitsBase5 n, 0 ≤ d ∧ d ≤ 4 := by
  intro k
  induction k with
  | zero =>
    intro n h1 _
    have hz : n = 0 := Int.natAbs_eq_zero.mp (by omega)
    subst hz
    exact ⟨rfl, by simp [day25.digitsBase5, day25.digitsBase5Loop, day25.valB5]⟩
  | succ k ih =>
    intro n h1 h2
    by_cases hn : n = 0
    · subst hn
      exact ⟨rfl, by simp [day25.digitsBase5, day25.digitsBase5Loop, day25.valB5]⟩
    · rw [digitsBase5_eq hn]
      have hq0 : 0 ≤ n.tdiv 5 := Int.tdiv_nonneg h2 (by norm_num)
      have hqa : (n.tdiv 5).natAbs ≤ k := by
        have := natAbs_tdiv5_lt hn
        have hpos : 1 ≤ n.natAbs :=
          Nat.pos_of_ne_zero (fun hz => hn (Int.natAbs_eq_zero.mp hz))
        omega
      obtain ⟨ihv, ihd⟩ := ih (n.tdiv 5) hqa hq0
      have hmod : 0 ≤ n.tmod 5 := Int.tmod_nonneg _ h2
      have hmodlt : n.tmod 5 < 5 := Int.tmod_lt_of_pos n (by norm_num)
      constructor
      · show n.tmod 5 + 5 * day25.valB5 (day25.digitsBase5 (n.tdiv 5)) = n
        rw [ihv]
        have := Int.tdiv_add_tmod n 5
        omega
      · intro d hd
        rcases List.mem_cons.mp hd with h | h
        · subst h; omega
        · exact ihd d h

theorem digitsBase5_last :
    ∀ (k : Nat) (n : Int), n.natAbs ≤ k → 0 < n →
      ∃ dl, (day25.digitsBase5 n).getLast? = some dl ∧ 1 ≤ dl := by
  intro k
  induction k with
  | zero =>
    intro n h1 h2
    have hz : n = 0 := Int.natAbs_eq_zero.mp (by omega)
    omega
  | succ k ih =>
    intro n h1 h2
    have hn : n ≠ 0 := by omega
    rw [digitsBase5_eq hn]
    by_cases hq : n.tdiv 5 = 0
    · rw [hq]
      refine ⟨n.tmod 5, by simp [day25.digitsBase5, day25.digitsBase5Loop], ?_⟩
      have := Int.tdiv_add_tmod n 5
      rw [hq] at this
      omega
    · have hqpos : 0 < n.tdiv 5 :=
        lt_of_le_of_ne (Int.tdiv_nonneg (by omega) (by norm_num)) (Ne.symm hq)
      have hpos : 1 ≤ n.natAbs :=
        Nat.pos_of_ne_zero (fun hz => hn (Int.natAbs_eq_zero.mp hz))
      obtain ⟨dl, hdl, hge⟩ := ih (n.tdiv 5) (by have := natAbs_tdiv5_lt hn; omega) hqpos
      refine ⟨dl, ?_, hge⟩
      rcases hx : day25.digitsBase5 (n.tdiv 5) with _ | ⟨x, xs⟩
      · rw [hx] at hdl; cases hdl
      · rw [hx] at hdl
        rw [List.getLast?_cons_cons]
        exact hdl

theorem fixup_cons_ge {c d : Int} {rest : List Int} (h : 3 ≤ d + c) (hne : rest ≠ []) :
    day25.fixup c (d :: rest) = (day25.fixup 1 rest).map (fun out => (d + c - 5) :: out) := by
  rcases rest with _ | ⟨r, rs⟩
  · exact absurd rfl hne
  · rw [day25.fixup.eq_def]
    simp only [if_pos h]

theorem fixup_cons_lt {c d : Int} {rest : List Int} (h : ¬ 3 ≤ d + c) :
    day25.fixup c (d :: rest) = (day25.fixup 0 rest).map (fun out => (d + c) :: out) := by
  rw [day25.fixup.eq_def]
  simp only [if_neg h]

theorem fixup_spec :
    ∀ (ds : List Int) (c : Int), (∀ d ∈ ds, 0 ≤ d ∧ d ≤ 4) → (c = 0 ∨ c = 1) →
      ∃ out b, day25.fixup c (ds ++ [0]) = some (out ++ [b]) ∧
        out.length = ds.length ∧
        (∀ d ∈ out, -2 ≤ d ∧ d ≤ 2) ∧
        (b = 0 ∨ b = 1) ∧
        day25.valB5 (out ++ [b]) = c + day25.valB5 ds ∧
        (b = 0 → ∀ dl, ds.getLast? = some dl → 1 ≤ dl →
          ∃ ol, out.getLast? = some ol ∧ 1 ≤ ol) := by
  intro ds
  induction ds with
  | nil =>
    intro c hds hc
    refine ⟨[], c, ?_, rfl, by simp, hc, ?_, ?_⟩
    · have hlt : ¬ (3 ≤ (0 : Int) + c) := by omega
      rw [show ([] : List Int) ++ [0] = [(0 : Int)] by rfl, fixup_cons_lt hlt]
      simp [day25.fixup]
    · simp [day25.valB5]
    · intro _ dl hdl
      cases hdl
  | cons d ds' ih =>
    intro c hds hc
    have hd := hds d (by simp)
    have hds' : ∀ x ∈ ds', 0 ≤ x ∧ x ≤ 4 := fun x hx => hds x (by simp [hx])
    by_cases hcar : 3 ≤ d + c
    · obtain ⟨out', b, hfix, hlen, hdig, hb, hval, hlast⟩ := ih 1 hds' (Or.inr rfl)
      refine ⟨(d + c - 5) :: out', b, ?_, by simp [hlen], ?_, hb, ?_, ?_⟩
      · rw [List.cons_append, fixup_cons_ge hcar (by simp), hfix]
        rfl
      · intro x hx
        rcases List.mem_cons.mp hx with h | h
        · subst h
          rcases hc with h0 | h0 <;> omega
        · exact hdig x h
      · show (d + c - 5) + 5 * day25.valB5 (out' ++ [b]) = c + (d + 5 * day25.valB5 ds')
        rw [hval]
        ring
      · intro hb0 dl hdl hdl1
        by_cases hds'e : ds' = []
        · have ho : out' = [] := by
            rw [hds'e] at hlen
            exact List.length_eq_zero.mp (by simpa using hlen)
          rw [hds'e, ho] at hval
          have hb1 : b = 1 := by
            have hv : day25.valB5 ([] ++ [b]) = 1 + day25.valB5 ([] : List Int) := hval
            simp [day25.valB5] at hv
            omega
          rw [hb1] at hb0
          cases hb0
        · obtain ⟨e, es, hds'nil⟩ := List.exists_cons_of_ne_nil hds'e
          obtain ⟨ol, hol, hol1⟩ := hlast hb0 dl
            (by rw [hds'nil] at hdl ⊢; rwa [List.getLast?_cons_cons] at hdl) hdl1
          refine ⟨ol, ?_, hol1⟩
          have hone : out' ≠ [] := by
            intro h0
            rw [h0, hds'nil] at hlen
            simp at hlen
          obtain ⟨o, os, hout'⟩ := List.exists_cons_of_ne_nil hone
          rw [hout'] at hol ⊢
          rw [List.getLast?_cons_cons]
          exact hol
    · obtain ⟨out', b, hfix, hlen, hdig, hb, hval, hlast⟩ := ih 0 hds' (Or.inl rfl)
      refine ⟨(d + c) :: out', b, ?_, by simp [hlen], ?_, hb, ?_, ?_⟩
      · rw [List.cons_append, fixup_cons_lt hcar, hfix]
        rfl
      · intro x hx
        rcases List.mem_cons.mp hx with h | h
        · subst h
          rcases hc with h0 | h0 <;> omega
        · exact hdig x h
      · show (d + c) + 5 * day25.valB5 (out' ++ [b]) = c + (d + 5 * day25.valB5 ds')
        rw [hval]
        ring
      · intro hb0 dl hdl hdl1
        by_cases hds'e : ds' = []
        · have ho : out' = [] := by
            rw [hds'e] at hlen
            exact List.length_eq_zero.mp (by simpa using hlen)
          rw [hds'e] at hdl
          have hdld : dl = d := by
            simp at hdl
            omega
          refine ⟨d + c, ?_, by omega⟩
          rw [ho]
          simp
        · obtain ⟨e, es, hds'nil⟩ := List.exists_cons_of_ne_nil hds'e
          obtain ⟨ol, hol, hol1⟩ := hlast hb0 dl
            (by rw [hds'nil] at hdl ⊢; rwa [List.getLast?_cons_cons] at hdl) hdl1
          refine ⟨ol, ?_, hol1⟩
          have hone : out' ≠ [] := by
            intro h0
            rw [h0, hds'nil] at hlen
            simp at hlen
          obtain ⟨o, os, hout'⟩ := List.exists_cons_of_ne_nil hone
          rw [hout'] at hol ⊢
          rw [List.getLast?_cons_cons]
          exact hol

theorem valB5_append_zero : ∀ l : List Int, day25.valB5 (l ++ [0]) = day25.valB5 l := by
  intro l
  induction l with
  | nil => simp [day25.valB5]
  | cons d ds ih =>
    show d + 5 * day25.valB5 (ds ++ [0]) = d + 5 * day25.valB5 ds
    rw [ih]

theorem charOfDigit_eq {d : Int} (h1 : -2 ≤ d) (h2 : d ≤ 2) :
    day25.charOfDigit d = some (day25.specSnafuChar d) := by
  interval_cases d <;> decide

theorem mapMo_charOfDigit {l : List Int} (h : ∀ d ∈ l, -2 ≤ d ∧ d ≤ 2) :
    mapMo day25.charOfDigit l = some (l.map day25.specSnafuChar) := by
  induction l with
  | nil => rfl
  | cons d ds ih =>
    have hd := h d (by simp)
    rw [mapMo, charOfDigit_eq hd.1 hd.2, ih (fun x hx => h x (by simp [hx]))]
    rfl

theorem decimalToSnafu_reduce (n : Int) (fixed : List Int)
    (hfix : day25.fixup 0 (day25.digitsBase5 n ++ [0]) = some fixed) :
    day25.decimalToSnafu n =
      (match mapMo day25.charOfDigit
          ((if fixed.getLast? = some 0 then fixed.dropLast else fixed).reverse) with
      | none => none
      | some chars => some (String.mk chars)) := by
  rw [day25.decimalToSnafu, hfix]

theorem decimalToSnafu_spec {n : Int} (hn : 1 ≤ n) :
    ∃ digs : List Int,
      day25.decimalToSnafu n = some (String.mk (digs.reverse.map day25.specSnafuChar)) ∧
      (∀ d ∈ digs, -2 ≤ d ∧ d ≤ 2) ∧
      day25.valB5 digs = n ∧
      (∃ dl, digs.getLast? = some dl ∧ 1 ≤ dl ∧ dl ≤ 2) := by
  have hnn : (0 : Int) ≤ n := by omega
  obtain ⟨hval, hdig⟩ := digitsBase5_spec n.natAbs n (le_refl _) hnn
  obtain ⟨dl, hdl, hdl1⟩ := digitsBase5_last n.natAbs n (le_refl _) (by omega)
  obtain ⟨out, b, hfix, hlen, hodig, hb, hoval, hlast⟩ :=
    fixup_spec (day25.digitsBase5 n) 0 hdig (Or.inl rfl)
  rw [hval, zero_add] at hoval
  rcases hb with hb0 | hb1
  · subst hb0
    obtain ⟨ol, hol, hol1⟩ := hlast rfl dl hdl hdl1
    have holmem : ol ∈ out := List.mem_of_getLast?_eq_some hol
    refine ⟨out, ?_, hodig, ?_, ⟨ol, hol, hol1, (hodig ol holmem).2⟩⟩
    · rw [decimalToSnafu_reduce n (out ++ [0]) hfix]
      rw [List.getLast?_concat, if_pos rfl, List.dropLast_concat]
      rw [mapMo_charOfDigit (fun x hx => hodig x (List.mem_reverse.mp hx))]
    · rw [valB5_append_zero] at hoval
      exact hoval
  · subst hb1
    refine ⟨out ++ [1], ?_, ?_, hoval, ?_⟩
    · rw [decimalToSnafu_reduce n (out ++ [1]) hfix]
      rw [List.getLast?_concat, if_neg (by simp)]
      have hdig1 : ∀ d ∈ out ++ [1], -2 ≤ d ∧ d ≤ 2 := by
        intro x hx
        rcases List.mem_append.mp hx with h | h
        · exact hodig x h
        · simp at h
          subst h
          norm_num
      rw [mapMo_charOfDigit (fun x hx => hdig1 x (List.mem_reverse.mp hx))]
    · intro x hx
      rcases List.mem_append.mp hx with h | h
      · exact hodig x h
      · simp at h
        subst h
        norm_num
    · exact ⟨1, List.getLast?_concat _, by norm_num, by norm_num⟩

theorem bdigit_range (n : Int) : -2 ≤ day25.bdigit n ∧ day25.bdigit n ≤ 2 := by
  have h1 : 0 ≤ (n + 2) % 5 := Int.emod_nonneg _ (by norm_num)
  have h2 : (n + 2) % 5 < 5 := Int.emod_lt_of_pos _ (by norm_num)
  unfold day25.bdigit
  omega

theorem bdigit_quot (n : Int) : (n - day25.bdigit n) / 5 = (n + 2) / 5 := by
  have hd : n - day25.bdigit n = 5 * ((n + 2) / 5) := by
    have h := Int.ediv_add_emod (n + 2) 5
    unfold day25.bdigit
    omega
  rw [hd, Int.mul_ediv_cancel_left _ (by norm_num : (5 : Int) ≠ 0)]

theorem natAbs_specq_lt {n : Int} (hn : n ≠ 0) : ((n - day25.bdigit n) / 5).natAbs < n.natAbs := by
  rw [bdigit_quot]
  have h := Int.ediv_add_emod (n + 2) 5
  have hr1 : 0 ≤ (n + 2) % 5 := Int.emod_nonneg _ (by norm_num)
  have hr2 : (n + 2) % 5 < 5 := Int.emod_lt_of_pos _ (by norm_num)
  omega

theorem specSnafuDigitsLoop_zero : ∀ f, day25.specSnafuDigitsLoop f 0 = [] := by
  intro f
  cases f with
  | zero => rfl
  | succ f => simp [day25.specSnafuDigitsLoop]

theorem specSnafuDigitsLoop_congr :
    ∀ (f1 f2 : Nat) (n : Int), n.natAbs ≤ f1 → n.natAbs ≤ f2 →
      day25.specSnafuDigitsLoop f1 n = day25.specSnafuDigitsLoop f2 n := by
  intro f1
  induction f1 with
  | zero =>
    intro f2 n h1 h2
    have hz : n = 0 := Int.natAbs_eq_zero.mp (by omega)
    subst hz
    rw [specSnafuDigitsLoop_zero, specSnafuDigitsLoop_zero]
  | succ f ih =>
    intro f2 n h1 h2
    by_cases hn : n = 0
    · subst hn; rw [specSnafuDigitsLoop_zero, specSnafuDigitsLoop_zero]
    · have hpos : 1 ≤ n.natAbs :=
        Nat.pos_of_ne_zero (fun hz => hn (Int.natAbs_eq_zero.mp hz))
      rcases f2 with _ | f2'
      · omega
      · rw [day25.specSnafuDigitsLoop, day25.specSnafuDigitsLoop, if_neg hn, if_neg hn]
        have hlt := natAbs_specq_lt hn
        rw [ih f2' _ (by omega) (by omega)]

theorem specSnafuDigits_eq {n : Int} (hn : n ≠ 0) :
    day25.specSnafuDigits n =
      day25.bdigit n :: day25.specSnafuDigits ((n - day25.bdigit n) / 5) := by
  have hpos : 1 ≤ n.natAbs :=
    Nat.pos_of_ne_zero (fun hz => hn (Int.natAbs_eq_zero.mp hz))
  obtain ⟨m, hm⟩ : ∃ m, n.natAbs = m + 1 := ⟨n.natAbs - 1, by omega⟩
  rw [day25.specSnafuDigits, day25.specSnafuDigits, hm, day25.specSnafuDigitsLoop, if_neg hn]
  congr 1
  exact specSnafuDigitsLoop_congr m _ _ (by have := natAbs_specq_lt hn; omega) (le_refl _)

theorem specSnafuDigits_spec :
    ∀ (k : Nat) (n : Int), n.natAbs ≤ k → 0 < n →
      day25.valB5 (day25.specSnafuDigits n) = n ∧
      (∀ d ∈ day25.specSnafuDigits n, -2 ≤ d ∧ d ≤ 2) ∧
      (∃ dl, (day25.specSnafuDigits n).getLast? = some dl ∧ dl ≠ 0) := by
  intro k
  induction k with
  | zero =>
    intro n h1 h2
    have hz : n = 0 := Int.natAbs_eq_zero.mp (by omega)
    omega
  | succ k ih =>
    intro n h1 h2
    have hn : n ≠ 0 := by omega
    rw [specSnafuDigits_eq hn]
    have hbr := bdigit_range n
    have hq5 : n - day25.bdigit n = 5 * ((n + 2) / 5) := by
      have h := Int.ediv_add_emod (n + 2) 5
      unfold day25.bdigit
      omega
    have hq0 : 0 ≤ (n - day25.bdigit n) / 5 := by
      rw [bdigit_quot]
      apply Int.ediv_nonneg (by omega) (by norm_num)
    by_cases hq : (n - day25.bdigit n) / 5 = 0
    · rw [hq, day25.specSnafuDigits, specSnafuDigitsLoop_zero]
      have hnd : n = day25.bdigit n := by
        rw [bdigit_quot] at hq
        have h := Int.ediv_add_emod (n + 2) 5
        rw [hq] at h
        unfold day25.bdigit
        omega
      refine ⟨by show day25.bdigit n + 5 * day25.valB5 [] = n; simp [day25.valB5]; omega,
        ?_, ⟨day25.bdigit n, by simp, by omega⟩⟩
      intro d hd
      simp at hd
      subst hd
      exact hbr
    · have hqpos : 0 < (n - day25.bdigit n) / 5 := by omega
      obtain ⟨ihv, ihd, ⟨sl, hsl, hsl0⟩⟩ := ih _ (by have := natAbs_specq_lt hn; omega) hqpos
      refine ⟨?_, ?_, ?_⟩
      · show day25.bdigit n + 5 * day25.valB5 (day25.specSnafuDigits ((n - day25.bdigit n) / 5)) = n
        rw [ihv, bdigit_quot]
        have h := Int.ediv_add_emod (n + 2) 5
        unfold day25.bdigit
        omega
      · intro d hd
        rcases List.mem_cons.mp hd with h | h
        · subst h; exact hbr
        · exact ihd d h
      · refine ⟨sl, ?_, hsl0⟩
        have hne : day25.specSnafuDigits ((n - day25.bdigit n) / 5) ≠ [] := by
          intro he
          rw [he] at hsl
          cases hsl
        obtain ⟨e, es, hees⟩ := List.exists_cons_of_ne_nil hne
        rw [hees] at hsl ⊢
        rw [List.getLast?_cons_cons]
        exact hsl

theorem lastNonzero_tail {d : Int} {ds : List Int}
    (h : ∀ dl, (d :: ds).getLast? = some dl → dl ≠ 0) :
    ∀ dl, ds.getLast? = some dl → dl ≠ 0 := by
  intro dl hdl
  apply h
  have hne : ds ≠ [] := by
    intro h0
    rw [h0] at hdl
    cases hdl
  obtain ⟨e, es, hds⟩ := List.exists_cons_of_ne_nil hne
  rw [hds] at hdl ⊢
  rw [List.getLast?_cons_cons]
  exact hdl

theorem valB5_ne_zero :
    ∀ l : List Int, (∀ d ∈ l, -2 ≤ d ∧ d ≤ 2) →
      (∀ dl, l.getLast? = some dl → dl ≠ 0) → l ≠ [] → day25.valB5 l ≠ 0 := by
  intro l
  induction l with
  | nil => intro _ _ h; exact absurd rfl h
  | cons d ds ih =>
    intro hdig hlast _
    by_cases hds : ds = []
    · subst hds
      have hd0 : d ≠ 0 := hlast d (by simp)
      show d + 5 * day25.valB5 [] ≠ 0
      show d + 5 * 0 ≠ 0
      omega
    · have hv := ih (fun x hx => hdig x (by simp [hx])) (lastNonzero_tail hlast) hds
      have hdmag := hdig d (by simp)
      show d + 5 * day25.valB5 ds ≠ 0
      omega

theorem valB5_inj :
    ∀ (l1 l2 : List Int),
      (∀ d ∈ l1, -2 ≤ d ∧ d ≤ 2) → (∀ d ∈ l2, -2 ≤ d ∧ d ≤ 2) →
      (∀ dl, l1.getLast? = some dl → dl ≠ 0) →
      (∀ dl, l2.getLast? = some dl → dl ≠ 0) →
      day25.valB5 l1 = day25.valB5 l2 → l1 = l2 := by
  intro l1
  induction l1 with
  | nil =>
    intro l2 _ h2 _ hl2 hv
    by_cases h : l2 = []
    · rw [h]
    · exact absurd (by rw [← hv]; rfl) (valB5_ne_zero l2 h2 hl2 h)
  | cons d ds ih =>
    intro l2 h1 h2 hl1 hl2 hv
    rcases l2 with _ | ⟨e, es⟩
    · exact absurd (by rw [hv]; rfl) (valB5_ne_zero (d :: ds) h1 hl1 (by simp))
    · have hd := h1 d (by simp)
      have he := h2 e (by simp)
      have hveq : d + 5 * day25.valB5 ds = e + 5 * day25.valB5 es := hv
      have hde : d = e := by omega
      have hv' : day25.valB5 ds = day25.valB5 es := by omega
      subst hde
      congr 1
      exact ih es (fun x hx => h1 x (by simp [hx])) (fun x hx => h2 x (by simp [hx]))
        (lastNonzero_tail hl1) (lastNonzero_tail hl2) hv'

theorem decimalToSnafu_eq_spec {n : Int} (hn : 1 ≤ n) :
    day25.decimalToSnafu n = some (day25.specSnafu n) := by
  obtain ⟨digs, heq, hdig, hval, ⟨dl, hdl, hdl1, hdl2⟩⟩ := decimalToSnafu_spec hn
  obtain ⟨hsval, hsdig, ⟨sl, hsl, hsl0⟩⟩ :=
    specSnafuDigits_spec n.natAbs n (le_refl _) (by omega)
  have hdigs : digs = day25.specSnafuDigits n := by
    apply valB5_inj digs _ hdig hsdig
    · intro x hx
      rw [hdl] at hx
      injection hx with hx
      omega
    · intro x hx
      rw [hsl] at hx
      injection hx with hx
      omega
    · rw [hval, hsval]
  rw [heq, hdigs, day25.specSnafu, if_neg (by omega)]

theorem snafuDigitVal_range (c : Char) :
    -2 ≤ day25.snafuDigitVal c ∧ day25.snafuDigitVal c ≤ 2 := by
  unfold day25.snafuDigitVal
  split_ifs <;> norm_num

theorem digitOfChar_eq {c : Char} (h : day25.isSnafuChar c = true) :
    day25.digitOfChar c = some (day25.snafuDigitVal c) := by
  simp only [day25.isSnafuChar, Bool.or_eq_true, decide_eq_true_eq] at h
  rcases h with ((((h | h) | h) | h) | h) <;> subst h <;> decide

theorem decodeLoop_ok :
    ∀ (ll : List Char) (j : Nat) (sum : Int),
      (∀ c ∈ ll, day25.isSnafuChar c = true) →
      j + ll.length ≤ 27 →
      2 * |sum| ≤ 5 ^ j - 1 →
      day25.decodeLoop sum (5 ^ j) ll =
        some (sum + 5 ^ j * day25.valB5 (ll.map day25.snafuDigitVal)) := by
  intro ll
  induction ll with
  | nil =>
    intro j sum _ _ _
    show some sum = _
    simp [day25.valB5]
  | cons c rest ih =>
    intro j sum hval hlen hsum
    have hc := hval c (by simp)
    have hx := snafuDigitVal_range c
    have hx2 : |day25.snafuDigitVal c| ≤ 2 := abs_le.mpr ⟨hx.1, hx.2⟩
    have hj26 : j ≤ 26 := by
      simp only [List.length_cons] at hlen
      omega
    have hA0 : (0 : Int) < 5 ^ j := pow_pos (by norm_num) j
    have hAabs : |(5 : Int) ^ j| = 5 ^ j := abs_of_pos hA0
    have hp26 : (5 : Int) ^ j ≤ 5 ^ 26 := pow_le_pow_right (by norm_num) hj26
    have hL26 : (5 : Int) ^ 26 = 1490116119384765625 := by norm_num
    have hxA : |day25.snafuDigitVal c * 5 ^ j| ≤ 2 * 5 ^ j := by
      rw [abs_mul, hAabs]
      exact mul_le_mul_of_nonneg_right hx2 (le_of_lt hA0)
    obtain ⟨hxA1, hxA2⟩ := abs_le.mp hxA
    have c1 : chk64 (day25.snafuDigitVal c * 5 ^ j) =
        some (day25.snafuDigitVal c * 5 ^ j) := by
      apply chk64_some
      unfold int64Min int64Max
      constructor <;> omega
    have hsumabs := abs_le.mp (abs_add sum (day25.snafuDigitVal c * 5 ^ j))
    have habs1 := le_abs_self sum
    have habs2 := neg_abs_le sum
    have hpow : (5 : Int) ^ (j + 1) = 5 * 5 ^ j := by rw [pow_succ]; ring
    have hp27 : (5 : Int) ^ (j + 1) ≤ 5 ^ 27 :=
      pow_le_pow_right (by norm_num) (by omega)
    have hL27 : (5 : Int) ^ 27 = 7450580596923828125 := by norm_num
    have hsum' : 2 * |sum + day25.snafuDigitVal c * 5 ^ j| ≤ 5 ^ (j + 1) - 1 := by
      have h1 : |sum + day25.snafuDigitVal c * 5 ^ j| ≤
          |sum| + |day25.snafuDigitVal c * 5 ^ j| := abs_add _ _
      omega
    have hs2 := abs_le.mp (le_refl |sum + day25.snafuDigitVal c * 5 ^ j|)
    have hsabs1 := le_abs_self (sum + day25.snafuDigitVal c * 5 ^ j)
    have hsabs2 := neg_abs_le (sum + day25.snafuDigitVal c * 5 ^ j)
    have c2 : chk64 (sum + day25.snafuDigitVal c * 5 ^ j) =
        some (sum + day25.snafuDigitVal c * 5 ^ j) := by
      apply chk64_some
      unfold int64Min int64Max
      constructor <;> omega
    have c3 : chk64 (5 ^ j * 5) = some (5 ^ j * 5) := by
      apply chk64_some
      unfold int64Min int64Max
      have h55 : (5 : Int) ^ j * 5 = 5 ^ (j + 1) := by rw [pow_succ]
      constructor <;> omega
    have hred : day25.decodeLoop sum (5 ^ j) (c :: rest) =
        day25.decodeLoop (sum + day25.snafuDigitVal c * 5 ^ j) (5 ^ j * 5) rest := by
      rw [day25.decodeLoop, digitOfChar_eq hc]
      simp only [c1, c2, c3]
    rw [hred, show (5 : Int) ^ j * 5 = 5 ^ (j + 1) by rw [pow_succ]]
    rw [ih (j + 1) _ (fun x hxm => hval x (by simp [hxm]))
      (by simp only [List.length_cons] at hlen ⊢; omega) hsum']
    congr 1
    show _ = sum + 5 ^ j * (day25.snafuDigitVal c + 5 * day25.valB5 (rest.map day25.snafuDigitVal))
    rw [hpow]
    ring

theorem snafuToDecimal_ok {cs : List Char}
    (hval : ∀ c ∈ cs, day25.isSnafuChar c = true) (hlen : cs.length ≤ 27) :
    day25.snafuToDecimal cs = some (day25.snafuVal cs) := by
  rw [day25.snafuToDecimal]
  have h := decodeLoop_ok cs.reverse 0 0
    (fun c hc => hval c (List.mem_reverse.mp hc)) (by simpa using hlen) (by simp)
  rw [pow_zero] at h
  rw [h, day25.snafuVal]
  congr 1
  ring

theorem sumLoop_ok :
    ∀ (ns : List (List Char)) (acc : Int),
      (∀ l ∈ ns, (∀ c ∈ l, day25.isSnafuChar c = true) ∧ l.length ≤ 27) →
      steps64Ok acc (ns.map day25.snafuVal) = true →
      day25.sumLoop acc ns = some (acc + (ns.map day25.snafuVal).sum) := by
  intro ns
  induction ns with
  | nil =>
    intro acc _ _
    show some acc = _
    simp
  | cons n ns' ih =>
    intro acc hvalid hrange
    have hn := hvalid n (by simp)
    simp only [List.map_cons, steps64Ok, Bool.and_eq_true] at hrange
    obtain ⟨hr1, hr2⟩ := hrange
    have hchk : chk64 (acc + day25.snafuVal n) = some (acc + day25.snafuVal n) := by
      simp [chk64, hr1]
    have hred : day25.sumLoop acc (n :: ns') =
        day25.sumLoop (acc + day25.snafuVal n) ns' := by
      rw [day25.sumLoop, snafuToDecimal_ok hn.1 hn.2]
      simp only [hchk]
    rw [hred, ih _ (fun l hl => hvalid l (by simp [hl])) hr2]
    congr 1
    simp
    ring

theorem specSnafuChar_valid {d : Int} (h1 : -2 ≤ d) (h2 : d ≤ 2) :
    day25.isSnafuChar (day25.specSnafuChar d) = true := by
  interval_cases d <;> decide

theorem snafuDigitVal_specSnafuChar {d : Int} (h1 : -2 ≤ d) (h2 : d ≤ 2) :
    day25.snafuDigitVal (day25.specSnafuChar d) = d := by
  interval_cases d <;> decide

theorem valB5_lower :
    ∀ l : List Int, (∀ d ∈ l, -2 ≤ d ∧ d ≤ 2) →
      ∀ dl, l.getLast? = some dl → 1 ≤ dl →
      5 ^ (l.length - 1) + 1 ≤ 2 * day25.valB5 l := by
  intro l
  induction l with
  | nil =>
    intro _ dl hdl
    cases hdl
  | cons d ds ih =>
    intro hdig dl hdl hdl1
    by_cases hds : ds = []
    · subst hds
      have hdld : d = dl := by
        simp at hdl
        omega
      show (5 : Int) ^ (1 - 1) + 1 ≤ 2 * (d + 5 * day25.valB5 [])
      show (5 : Int) ^ 0 + 1 ≤ 2 * (d + 5 * 0)
      rw [pow_zero]
      omega
    · obtain ⟨e, es, hees⟩ := List.exists_cons_of_ne_nil hds
      have hdl' : ds.getLast? = some dl := by
        rw [hees] at hdl ⊢
        rwa [List.getLast?_cons_cons] at hdl
      have hih := ih (fun x hx => hdig x (by simp [hx])) dl hdl' hdl1
      have hd := hdig d (by simp)
      have hk : ds.length ≥ 1 := by
        rw [hees]
        simp
      have hpow : (5 : Int) ^ ((d :: ds).length - 1) = 5 * 5 ^ (ds.length - 1) := by
        simp only [List.length_cons]
        rw [show ds.length + 1 - 1 = (ds.length - 1) + 1 by omega, pow_succ]
        ring
      show (5 : Int) ^ ((d :: ds).length - 1) + 1 ≤ 2 * (d + 5 * day25.valB5 ds)
      rw [hpow]
      omega

end adventofcode

/-- C8, corrected: converting a positive int64 value to SNAFU and decoding
it back is the identity for values up to (5^27 - 1) / 2 = 3725290298461914062,
the largest value whose SNAFU numeral has 27 digits.  For larger values the
numeral has 28 digits and the decode loop's final factor *= 5 computes 5^28,
which overflows int64 (UB), so the claim fails there (see the
counterexample). -/
theorem c8_snafu_roundtrip (n : Int) (h1 : 1 ≤ n) (h2 : n ≤ 3725290298461914062) :
    (day25.decimalToSnafu n).bind (fun s => day25.snafuToDecimal s.data) = some n := by
  obtain ⟨digs, heq, hdig, hval, ⟨dl, hdl, hdl1, hdl2⟩⟩ := adventofcode.decimalToSnafu_spec h1
  rw [heq]
  show day25.snafuToDecimal (String.mk (digs.reverse.map day25.specSnafuChar)).data = some n
  have hlow := adventofcode.valB5_lower digs hdig dl hdl hdl1
  rw [hval] at hlow
  have hlen1 : 1 ≤ digs.length := by
    rcases digs with _ | ⟨x, xs⟩
    · cases hdl
    · simp
  have hlen27 : digs.length ≤ 27 := by
    by_contra hgt
    have h28 : 27 ≤ digs.length - 1 := by omega
    have hbig : (5 : Int) ^ 27 ≤ 5 ^ (digs.length - 1) :=
      pow_le_pow_right (by norm_num) h28
    have hL27 : (5 : Int) ^ 27 = 7450580596923828125 := by norm_num
    omega
  have hchars : ∀ c ∈ digs.reverse.map day25.specSnafuChar, day25.isSnafuChar c = true := by
    intro c hc
    obtain ⟨d, hdm, hdc⟩ := List.mem_map.mp hc
    have hdr := hdig d (List.mem_reverse.mp hdm)
    rw [← hdc]
    exact adventofcode.specSnafuChar_valid hdr.1 hdr.2
  have hclen : (digs.reverse.map day25.specSnafuChar).length ≤ 27 := by
    simp [hlen27]
  rw [adventofcode.snafuToDecimal_ok hchars hclen]
  congr 1
  rw [day25.snafuVal]
  have hrr : (digs.reverse.map day25.specSnafuChar).reverse.map day25.snafuDigitVal =
      (digs.map day25.specSnafuChar).map day25.snafuDigitVal := by
    rw [← List.map_reverse, List.reverse_reverse]
  rw [hrr, List.map_map]
  have hmapid : digs.map (day25.snafuDigitVal ∘ day25.specSnafuChar) = digs := by
    have h1 : digs.map (day25.snafuDigitVal ∘ day25.specSnafuChar) = digs.map id := by
      apply List.map_congr_left
      intro d hd
      have := hdig d hd
      exact adventofcode.snafuDigitVal_specSnafuChar this.1 this.2
    rw [h1, List.map_id]
  rw [hmapid, hval]

/-- C8 witness: the theorem applied at n = 7 (SNAFU numeral 12). -/
theorem c8_snafu_roundtrip_witness :
    (day25.decimalToSnafu 7).bind (fun s => day25.snafuToDecimal s.data) = some 7 :=
  c8_snafu_roundtrip 7 (by norm_num) (by norm_num)

/-- C8 counterexample: at n = 3725290298461914063 (one more than the largest
27-digit SNAFU value) the numeral has 28 digits, the decode loop's final
factor *= 5 computes 5^28 which does not fit in int64 (UB, modelled as
none), so the roundtrip does not return n. -/
theorem c8_cex_roundtrip_overflow :
    (day25.decimalToSnafu 3725290298461914063).bind
      (fun s => day25.snafuToDecimal s.data) = none ∧
    (0 : Int) < 3725290298461914063 := by
  refine ⟨by decide, by norm_num⟩

/-- C7, corrected: for an input of newline-separated non-empty SNAFU
numerals of at most 27 digits whose running int64 total never overflows and
whose total is positive, day25 Part1 returns the SNAFU numeral denoting the
total.  The original claim fails when the total is zero: the code then
returns the empty string rather than the numeral 0 (see the
counterexample); large numerals or totals overflow int64 (UB). -/
theorem c7_day25_sum_of_snafu (s : String)
    (hvalid : ∀ l ∈ (splitNl s.data).filter (fun l => l ≠ []),
      (∀ c ∈ l, day25.isSnafuChar c = true) ∧ l.length ≤ 27)
    (hrange : steps64Ok 0
      (((splitNl s.data).filter (fun l => l ≠ [])).map day25.snafuVal) = true)
    (hpos : 1 ≤ (((splitNl s.data).filter (fun l => l ≠ [])).map day25.snafuVal).sum) :
    day25.Part1 s = some (.ok (day25.specSnafu
      ((((splitNl s.data).filter (fun l => l ≠ [])).map day25.snafuVal).sum))) := by
  have hsum := adventofcode.sumLoop_ok ((splitNl s.data).filter (fun l => l ≠ [])) 0
    hvalid hrange
  rw [zero_add] at hsum
  rw [day25.Part1, hsum]
  simp only [adventofcode.decimalToSnafu_eq_spec hpos]

/-- C7 witness: the theorem applied at "1=\n12\n" (values 3 and 7, total
10, SNAFU numeral 20). -/
theorem c7_day25_sum_of_snafu_witness :
    day25.Part1 "1=\n12\n" = some (.ok "20") := by
  have h := c7_day25_sum_of_snafu "1=\n12\n" (by decide) (by decide) (by decide)
  rw [h]
  decide

/-- C7 counterexample: "1\n-\n" holds the SNAFU numerals 1 and - with
values 1 and -1, so the claim says Part1 returns the SNAFU numeral denoting
0, which is "0"; the code returns the empty string instead (converting 0
produces no digits). -/
theorem c7_cex_zero_sum_empty_output :
    day25.Part1 "1\n-\n" = some (.ok "") ∧
    day25.specSnafu 0 = "0" ∧
    ("" : String) ≠ "0" := by
  refine ⟨by decide, by decide, by decide⟩

namespace adventofcode

theorem decimalToSnafu_zero : day25.decimalToSnafu 0 = some "" := by decide

end adventofcode

/-- Safe domains of the embedded solvers: day01 Part1 is total (returns an
answer or an error, never UB) when parsing fails or produces at least one
group sum with no int overflow, day01 Part2 when there are at least three
group sums with overflow-free top-three addition, day06 Part1/Part2 on a
non-empty input of lowercase letters, and day25 Part1 on valid SNAFU
numerals of at most 27 digits with an overflow-free non-negative total. -/
theorem solvers_total_on_safe_inputs (s : String) :
    (part1Safe s = true → ∃ r, day01.Part1 s = some r) ∧
    (part2Safe s = true → ∃ r, day01.Part2 s = some r) ∧
    (s.data ≠ [] → (∀ x ∈ day06.cropNl s.data, day06.isLower x = true) →
      (∃ r, day06.Part1 s = some r) ∧ ∃ r, day06.Part2 s = some r) ∧
    (day25Safe s = true → ∃ r, day25.Part1 s = some r) := by
  refine ⟨?_, ?_, ?_, ?_⟩
  · intro h
    rw [part1Safe] at h
    rcases hcal : day01.calories s with _ | r
    · rw [hcal] at h
      simp at h
    · rcases r with e | r
      · refine ⟨.error e, ?_⟩
        rw [day01.Part1]
        simp only [hcal]
      · rw [hcal] at h
        simp at h
        rcases r with _ | ⟨x, xs⟩
        · exact absurd rfl h
        · refine ⟨.ok (toString (xs.foldl max x)), ?_⟩
          rw [day01.Part1]
          simp only [hcal]
  · intro h
    rw [part2Safe] at h
    rcases hcal : day01.calories s with _ | r
    · rw [hcal] at h
      simp at h
    · rcases r with e | r
      · refine ⟨.error e, ?_⟩
        rw [day01.Part2]
        simp only [hcal]
      · rw [hcal] at h
        simp only [Bool.and_eq_true, decide_eq_true_eq] at h
        obtain ⟨h3, hsteps⟩ := h
        have hlen := adventofcode.sortDesc_length r
        rcases hs : day01.sortDesc r with _ | ⟨a, _ | ⟨b, _ | ⟨c, rest⟩⟩⟩
        · rw [hs] at hlen
          simp at hlen
          omega
        · rw [hs] at hlen
          simp at hlen
          omega
        · rw [hs] at hlen
          simp at hlen
          omega
        · rw [hs] at hsteps
          have htake : (a :: b :: c :: rest).take 3 = [a, b, c] := rfl
          rw [htake] at hsteps
          simp only [stepsOk, Bool.and_eq_true] at hsteps
          obtain ⟨_, h2, h3', _⟩ := hsteps
          have hab : inRange32 (a + b) = true := by
            rwa [show (0 : Int) + a + b = a + b by ring] at h2
          have habc : inRange32 (a + b + c) = true := by
            rwa [show (0 : Int) + a + b + c = a + b + c by ring] at h3'
          refine ⟨.ok (toString (a + b + c)), ?_⟩
          rw [day01.Part2]
          simp only [hcal, hs]
          rw [if_pos hab, if_pos habc]
  · intro hne hlower
    have h1 := adventofcode.solve_spec s true hne hlower
    have h2 := adventofcode.solve_spec s false hne hlower
    constructor
    · rcases hfd : day06.firstDistinctRun 4 4 (day06.cropNl s.data) with _ | i
      · refine ⟨.error (.internal "no answer found"), ?_⟩
        show day06.solve s true = _
        rw [h1, show (if true then (4 : Nat) else 14) = 4 from rfl, hfd]
      · refine ⟨.ok (toString (i + 1)), ?_⟩
        show day06.solve s true = _
        rw [h1, show (if true then (4 : Nat) else 14) = 4 from rfl, hfd]
    · rcases hfd : day06.firstDistinctRun 14 14 (day06.cropNl s.data) with _ | i
      · refine ⟨.error (.internal "no answer found"), ?_⟩
        show day06.solve s false = _
        rw [h2, show (if false then (4 : Nat) else 14) = 14 from rfl, hfd]
      · refine ⟨.ok (toString (i + 1)), ?_⟩
        show day06.solve s false = _
        rw [h2, show (if false then (4 : Nat) else 14) = 14 from rfl, hfd]
  · intro h
    simp only [day25Safe, Bool.and_eq_true, List.all_eq_true, decide_eq_true_eq] at h
    obtain ⟨⟨hval, hrange⟩, hsum0⟩ := h
    have hval' : ∀ l ∈ (splitNl s.data).filter (fun l => l ≠ []),
        (∀ c ∈ l, day25.isSnafuChar c = true) ∧ l.length ≤ 27 := by
      intro l hl
      have := hval l hl
      exact ⟨this.1, this.2⟩
    have hsum := adventofcode.sumLoop_ok ((splitNl s.data).filter (fun l => l ≠ [])) 0
      hval' hrange
    rw [zero_add] at hsum
    rcases eq_or_lt_of_le hsum0 with h0 | h0
    · refine ⟨.ok "", ?_⟩
      rw [day25.Part1]
      simp only [hsum, ← h0, adventofcode.decimalToSnafu_zero]
    · refine ⟨.ok (day25.specSnafu
        ((((splitNl s.data).filter (fun l => l ≠ [])).map day25.snafuVal).sum)), ?_⟩
      have h1 : (1 : Int) ≤
          ((((splitNl s.data).filter (fun l => l ≠ [])).map day25.snafuVal).sum) := h0
      rw [day25.Part1]
      simp only [hsum, adventofcode.decimalToSnafu_eq_spec h1]

/-- C1: the claim promises an answer or an error on every input string,
but the code deviates: on the empty string day06 solve evaluates
input.back(), the last character of an empty string, which is UB (modelled
as none) - neither an answer nor an error status is produced. -/
theorem c1_cex_day06_empty_input_ub :
    day06.Part1 "" = none ∧ day06.Part2 "" = none :=
  ⟨by decide, by decide⟩

